import Mathlib

/-!
Verification development for the abow visual bag-of-words library.

The Rust sources (src/vocab.rs, src/lib.rs, src/load_fow.rs) are shallowly
embedded below: pure functions become Lean functions, mutable builder state
becomes explicit state passing, u8/u32/u64 arithmetic becomes Nat with
explicit reduction modulo 2^w where the machine width matters, and code
paths that panic (index out of bounds, unwrap on None, assert_eq! failure)
become none / an explicit panic result value.
-/

set_option maxHeartbeats 1000000
set_option maxRecDepth 40000

namespace Abow

/-- A binary descriptor.  The Rust type is Desc = [u8; 32]; we model it as a
list of byte values, with well-formedness (length 32, all bytes < 256)
tracked separately by wfDesc. -/
abbrev Desc := List Nat

/-- std::mem::size_of::<Desc>() = 32. -/
def descSize : Nat := 32

/-- A list of bytes models an actual [u8; 32] value. -/
def wfDesc (d : Desc) : Prop := d.length = descSize ∧ ∀ b ∈ d, b < 256

instance (d : Desc) : Decidable (wfDesc d) := by
  unfold wfDesc; infer_instance

/-- The all-zero descriptor [0u8; 32], compared against by the cluster
retain step in Vocabulary::cluster. -/
def zeroDesc : Desc := List.replicate descSize 0

/-- Population count of one byte: (x ^ y).count_ones() for u8 values. -/
def popCnt8 (n : Nat) : Nat := (List.range 8).countP (fun i => n.testBit i)

/-- Hamming distance exactly as the source computes it (vocab.rs, fn hamming):
a fold over the zipped byte arrays accumulating per-byte popcounts of xors in
a u8 accumulator.  u8 addition wraps modulo 256 (release-mode semantics), so
every partial sum is reduced mod 256. -/
def hamming (x y : Desc) : Nat :=
  (x.zip y).foldl (fun a bc => (a + popCnt8 (Nat.xor bc.1 bc.2)) % 256) 0

/-- Specification-side definition (refinement target for C1): the exact
number of differing bit positions, i.e. the same fold without the u8 wrap. -/
def diffBits (x y : Desc) : Nat :=
  (x.zip y).foldl (fun a bc => a + popCnt8 (Nat.xor bc.1 bc.2)) 0

theorem foldl_mod_256 (l : List (Nat × Nat)) :
    ∀ a : Nat,
      l.foldl (fun a bc => (a + popCnt8 (Nat.xor bc.1 bc.2)) % 256) (a % 256)
        = (l.foldl (fun a bc => a + popCnt8 (Nat.xor bc.1 bc.2)) a) % 256 := by
  induction l with
  | nil => intro a; simp
  | cons hd tl ih =>
    intro a
    simp only [List.foldl_cons]
    rw [Nat.mod_add_mod, ih]

/-- C1, counterexample: for two 32-byte descriptors that differ in all 256
bit positions the exact Hamming distance is 256, but hamming returns 0 (the
u8 accumulator wraps), so hamming does not return the exact count there. -/
theorem C1_counterexample :
    diffBits (List.replicate 32 0) (List.replicate 32 255) = 256 ∧
    hamming (List.replicate 32 0) (List.replicate 32 255) = 0 ∧
    hamming (List.replicate 32 0) (List.replicate 32 255) ≠
      diffBits (List.replicate 32 0) (List.replicate 32 255) := by
  refine ⟨by decide, by decide, by decide⟩

/-- C1, amended: hamming returns the number of differing bit positions
reduced modulo 256 (because the accumulator is a u8); in particular it
returns the exact count whenever that count is at most 255, i.e. whenever
the two descriptors are not bitwise complements of each other. -/
theorem C1_hamming_exact_below_256 (x y : Desc) (hx : wfDesc x) (hy : wfDesc y) :
    hamming x y = diffBits x y % 256 ∧
    (diffBits x y < 256 → hamming x y = diffBits x y) := by
  have h : hamming x y = diffBits x y % 256 := by
    have h0 : (0 : Nat) = 0 % 256 := rfl
    rw [hamming, diffBits, h0, foldl_mod_256]
  exact ⟨h, fun hlt => by rw [h, Nat.mod_eq_of_lt hlt]⟩

theorem C1_hamming_exact_below_256_witness :
    wfDesc (List.replicate 32 1) ∧ wfDesc (List.replicate 32 0) ∧
    diffBits (List.replicate 32 1) (List.replicate 32 0) < 256 ∧
    hamming (List.replicate 32 1) (List.replicate 32 0) =
      diffBits (List.replicate 32 1) (List.replicate 32 0) :=
  ⟨by decide, by decide, by decide,
    (C1_hamming_exact_below_256 _ _ (by decide) (by decide)).2 (by decide)⟩

/-! ## Data model (vocab.rs) -/

/-- Unique identifier for a node (vocab.rs enum NodeId).  The Leaf variant
stores the block ids of all its parents (root excluded) followed by the
leaf's own id. -/
inductive NodeId where
  | block : Nat → NodeId
  | leaf : List Nat → NodeId
deriving DecidableEq

/-- Child data of a block (vocab.rs struct Children): four parallel arrays.
f32 weights are modelled as rationals. -/
structure Children where
  features : List Desc
  weights : List ℚ
  cluster_size : List Nat
  ids : List NodeId
deriving DecidableEq

/-- A non-leaf node (vocab.rs struct Block). -/
structure Block where
  id : NodeId
  children : Children
deriving DecidableEq

/-- The vocabulary (vocab.rs struct Vocabulary). -/
structure Vocabulary where
  blocks : List Block
  k : Nat
  levels : Nat
  num_blocks : Nat
  num_leaves : Nat
deriving DecidableEq

/-! ## Construction (vocab.rs Vocabulary::create / cluster) -/

/-- The mutable builder state threaded through Vocabulary::cluster: the
block list and the two id counters.  ctr is the position in the randomness
oracle, modelling the successive fresh draws from thread_rng (one per
cluster call). -/
structure BuildState where
  blocks : List Block
  num_blocks : Nat
  num_leaves : Nat
  ctr : Nat
deriving DecidableEq

/-- vocab.rs Vocabulary::next_node_id.  For a leaf, the stored path is the
parent block ids with the first (always the root, 0) dropped, followed by
the freshly drawn leaf id. -/
def next_node_id (s : BuildState) (leaf : Bool) (parent_ids : List Nat) :
    NodeId × BuildState :=
  if leaf then
    (NodeId.leaf (parent_ids.drop 1 ++ [s.num_leaves]),
      { s with num_leaves := s.num_leaves + 1 })
  else
    (NodeId.block (s.num_blocks + 1), { s with num_blocks := s.num_blocks + 1 })

/-- vocab.rs Vocabulary::desc_mean: per-bit majority vote (a bit is set iff
strictly more than half of the descriptors have it set).  Each bit position
is independent, so the Msb0 bit traversal of the source is modelled byte by
byte. -/
def desc_mean (descriptors : List Desc) : Desc :=
  let n2 := descriptors.length / 2
  (List.range descSize).map (fun j =>
    (List.range 8).foldl (fun acc t =>
      if n2 < descriptors.countP (fun d => (d.getD j 0).testBit t) then acc + 2 ^ t
      else acc) 0)

/-- One feature's nearest-centroid scan in the Lloyd loop of
Vocabulary::cluster: fold over the enumerated clusters starting from
(index 0, distance u8::MAX = 255), keeping the first strict improvement.
Returns (best index, best distance). -/
def bestCluster (clusters : List Desc) (f : Desc) : Nat × Nat :=
  clusters.enum.foldl
    (fun best jc => if hamming jc.2 f < best.2 then (jc.1, hamming jc.2 f) else best)
    (0, 255)

/-- One full assignment pass of the Lloyd loop: every feature index is
pushed (in feature order) into the group of its best cluster.  With a
non-empty feature list and no clusters, the source's push into
new_groups[best.0] would index out of bounds (panic), modelled by none. -/
def assign (features clusters : List Desc) : Option (List (List Nat)) :=
  if features ≠ [] ∧ clusters = [] then none
  else some ((List.range clusters.length).map (fun j =>
    (features.enum.filter (fun p => (bestCluster clusters p.2).1 == j)).map (·.1)))

/-- The Lloyd iteration of Vocabulary::cluster, with explicit fuel standing
for the unbounded source loop (which has no iteration cap).  The loop exits
when the freshly computed assignment equals the previous one, returning the
previous groups together with the current centroids; otherwise the
centroids are recomputed as per-group means and the loop continues. -/
def lloydLoop (features : List Desc) : Nat → List (List Nat) → List Desc →
    Option (List (List Nat) × List Desc)
  | 0, _, _ => none
  | fuel + 1, groups, clusters =>
    match assign features clusters with
    | none => none
    | some new_groups =>
      if new_groups = groups then some (groups, clusters)
      else lloydLoop features fuel new_groups
        (new_groups.map (fun g => desc_mean (g.map (fun i => features.getD i zeroDesc))))

/-- Lexicographic order on byte arrays ([u8; 32] Ord), used by the
sort_unstable call in initialize_clusters. -/
def descLe : List Nat → List Nat → Bool
  | [], _ => true
  | _ :: _, [] => false
  | a :: x, b :: y => if a < b then true else if b < a then false else descLe x y

def sortDescs (l : List Desc) : List Desc :=
  List.insertionSort (fun a b => descLe a b = true) l

/-- Adjacent deduplication after sorting (Vec::dedup).  Equal elements are
indistinguishable values, so keeping the last of a run instead of the first
yields the same list. -/
def dedupAdj : List Desc → List Desc
  | [] => []
  | [a] => [a]
  | a :: b :: rest => if a = b then dedupAdj (b :: rest) else a :: dedupAdj (b :: rest)

/-- vocab.rs Vocabulary::initialize_clusters.  The randomized k-means++
branch (init_kmeanspp, drawing from thread_rng) is abstracted by the sample
argument: the centroid list that the seeding procedure returns on this
call.  The two deterministic short-circuit branches are modelled exactly. -/
def initialize_clusters (k : Nat) (features : List Desc) (sample : List Desc) :
    List Desc :=
  if features.length ≤ k then features
  else
    let deduped := dedupAdj (sortDescs features)
    if deduped.length ≤ k then deduped else sample

/-- The stateful map drawing a NodeId for every surviving group
(vocab.rs cluster: groups.iter().map(|g| self.next_node_id(curr_level ==
self.levels || g.len() == 1, &parent_ids))). -/
def allocIds (levels curr_level : Nat) (parent_ids : List Nat) :
    List (List Nat) → BuildState → List NodeId × BuildState
  | [], s => ([], s)
  | g :: rest, s =>
    let r1 := next_node_id s (curr_level == levels || g.length == 1) parent_ids
    let r2 := allocIds levels curr_level parent_ids rest r1.2
    (r1.1 :: r2.1, r2.2)

/-- The recursion over children at the end of Vocabulary::cluster: for
every child id that is a Block, recurse (through f) on that child's subset
of the features, with the parent path extended by the child's block id, at
the next level.  Leaf children are skipped (the source filters on
matches!(n, NodeId::Block(_))). -/
def clusterKids (f : List Desc → List Nat → Nat → BuildState → Option BuildState)
    (features : List Desc) (parent_ids : List Nat) (curr_level : Nat) :
    List (NodeId × List Nat) → BuildState → Option BuildState
  | [], s => some s
  | p :: rest, s =>
    match p.1 with
    | NodeId.leaf _ => clusterKids f features parent_ids curr_level rest s
    | NodeId.block bid =>
      match f (p.2.map (fun j => features.getD j zeroDesc)) (parent_ids ++ [bid])
          (curr_level + 1) s with
      | none => none
      | some s1 => clusterKids f features parent_ids curr_level rest s1

/-- vocab.rs Vocabulary::cluster.  O is the randomness oracle (the outcome
of the k-means++ seeding on each successive call), lfuel is fuel for the
unbounded Lloyd loop, and the first Nat argument is fuel for the depth
recursion (the source only descends while curr_level < levels, so any fuel
above levels suffices; see cluster_spec).  A none result models a panic:
the assert_eq!(groups.len(), clusters.len()) failing, an out-of-bounds
index, an unwrap of None, or a Lloyd loop that does not converge within
lfuel rounds. -/
def cluster (O : Nat → List Desc → List Desc) (k levels lfuel : Nat) :
    Nat → List Desc → List Nat → Nat → BuildState → Option BuildState
  | 0, _, _, _, _ => none
  | dfuel + 1, features, parent_ids, curr_level, s =>
    let clusters0 := initialize_clusters k features (O s.ctr features)
    let s0 : BuildState := { s with ctr := s.ctr + 1 }
    match lloydLoop features lfuel (List.replicate clusters0.length []) clusters0 with
    | none => none
    | some gc =>
      -- remove empty groups, and centroids equal to the all-zero descriptor
      let groups := gc.1.filter (fun g => !g.isEmpty)
      let clusters := gc.2.filter (fun c => !(c == zeroDesc))
      if groups.length = clusters.length then
        match parent_ids.getLast? with
        | none => none
        | some pid =>
          let ir := allocIds levels curr_level parent_ids groups s0
          let children : Children :=
            { weights := List.replicate groups.length 1
              ids := ir.1
              cluster_size := groups.map List.length
              features := clusters }
          let s2 : BuildState :=
            { ir.2 with blocks := ir.2.blocks ++ [{ id := NodeId.block pid, children := children }] }
          if curr_level < levels then
            clusterKids (cluster O k levels lfuel dfuel) features parent_ids curr_level
              (ir.1.zip groups) s2
          else some s2
      else none

/-- Sort key of a block (NodeId::get_bid).  The Leaf case is unreachable!()
in the source; create rejects that case explicitly below, so the value
returned for it here is irrelevant. -/
def idKey (b : Block) : Nat :=
  match b.id with
  | NodeId.block i => i
  | NodeId.leaf _ => 0

def sortBlocks (l : List Block) : List Block :=
  List.insertionSort (fun a b => idKey a ≤ idKey b) l

/-- vocab.rs Vocabulary::create: start from the empty vocabulary, cluster
recursively from the root (parent path [0], level 1), then sort the block
list by block id.  get_bid in the sort comparator panics (unreachable!())
on a Leaf id; that case is modelled by the explicit all-check returning
none. -/
def create (O : Nat → List Desc → List Desc) (lfuel dfuel : Nat)
    (features : List Desc) (k l : Nat) : Option Vocabulary :=
  match cluster O k l lfuel dfuel features [0] 1 ⟨[], 0, 0, 0⟩ with
  | none => none
  | some s =>
    if s.blocks.all (fun b => match b.id with
        | NodeId.block _ => true
        | NodeId.leaf _ => false) then
      some { blocks := sortBlocks s.blocks, k := k, levels := l,
             num_blocks := s.num_blocks, num_leaves := s.num_leaves }
    else none

/-! ## Transform engine (vocab.rs Vocabulary::transform_inner) -/

/-- Error type (lib.rs enum BowErr); only the variants the transform path
can produce matter here. -/
inductive BowErr where
  | noFeatures
  | io
deriving DecidableEq

/-- Result of running a fallible Rust function: Ok, an explicit Err value,
or a panic (index out of bounds / unwrap on None). -/
inductive RRes (α : Type) where
  | ok : α → RRes α
  | err : BowErr → RRes α
  | panic : RRes α
deriving DecidableEq

/-- Per-feature nearest-child scan in transform_inner: fold over the
enumerated child features starting from (u8::MAX, index 0), keeping the
first strict improvement.  Returns (best distance, best index). -/
def bestChild (features : List Desc) (f : Desc) : Nat × Nat :=
  features.enum.foldl
    (fun best jc => if hamming f jc.2 < best.1 then (hamming f jc.2, jc.1) else best)
    (255, 0)

/-- The tree-descent loop of transform_inner for one feature, with fuel for
the unbounded source loop.  Returns the matched leaf's stored path, its
word id (ids.last().unwrap()) and the child's weight; none models a panic
(out-of-bounds child or block index, unwrap of an empty path) or a descent
that does not reach a leaf within fuel steps. -/
def traverse (v : Vocabulary) (f : Desc) : Nat → Block → Option (List Nat × Nat × ℚ)
  | 0, _ => none
  | fuel + 1, b =>
    let bc := bestChild b.children.features f
    match b.children.ids.get? bc.2 with
    | none => none
    | some (NodeId.block j) =>
      match v.blocks.get? j with
      | none => none
      | some b1 => traverse v f fuel b1
    | some (NodeId.leaf ids) =>
      match ids.getLast? with
      | none => none
      | some wordId =>
        match b.children.weights.get? bc.2 with
        | none => none
        | some w => some (ids, wordId, w)

/-- The per-feature accumulation loop of transform_inner: each feature is
routed from the root block (self.blocks[0]) to a leaf, its weight is added
into the BoW at the leaf's word id, and (when di is set) the leaf's path is
appended to the direct index.  The source's bow.0.get_mut(word_id) returns
None exactly when word_id is out of range, and the fallback arm
bow.0[word_id] = weight then panics; that is the wordId < bow.length test
below, with none for the panic. -/
def accumulate (v : Vocabulary) (tfuel : Nat) (di : Bool) :
    List Desc → List ℚ × List (List Nat) → Option (List ℚ × List (List Nat))
  | [], acc => some acc
  | f :: rest, acc =>
    match v.blocks.get? 0 with
    | none => none
    | some root =>
      match traverse v f tfuel root with
      | none => none
      | some r =>
        if r.2.1 < acc.1.length then
          accumulate v tfuel di rest
            (acc.1.set r.2.1 (acc.1.getD r.2.1 0 + r.2.2),
             if di then acc.2 ++ [r.1] else acc.2)
        else none

/-- vocab.rs Vocabulary::transform_inner.  Empty input is rejected with
BowErr::NoFeatures; otherwise the BoW (length num_leaves, zero
initialised) is accumulated and then L1-normalised in place by multiplying
with 1/sum whenever sum > 0. -/
def transform_inner (v : Vocabulary) (tfuel : Nat) (features : List Desc)
    (di : Bool) : RRes (List ℚ × List (List Nat)) :=
  if features = [] then RRes.err BowErr.noFeatures
  else
    match accumulate v tfuel di features (List.replicate v.num_leaves 0, []) with
    | none => RRes.panic
    | some r =>
      let sum : ℚ := r.1.sum
      if 0 < sum then RRes.ok (r.1.map (fun w => w * (1 / sum)), r.2)
      else RRes.ok r

/-- vocab.rs Vocabulary::transform. -/
def transform (v : Vocabulary) (tfuel : Nat) (features : List Desc) :
    RRes (List ℚ) :=
  match transform_inner v tfuel features false with
  | RRes.ok r => RRes.ok r.1
  | RRes.err e => RRes.err e
  | RRes.panic => RRes.panic

/-- vocab.rs Vocabulary::transform_with_direct_idx. -/
def transform_with_direct_idx (v : Vocabulary) (tfuel : Nat)
    (features : List Desc) : RRes (List ℚ × List (List Nat)) :=
  transform_inner v tfuel features true

/-- C2 (code bug): on the one-element feature set containing the all-zero
descriptor, the Lloyd loop converges to a single NON-empty group [0] whose
centroid is the all-zero descriptor; the retain step keeps the group but
drops its centroid (it compares centroids against [0u8; 32] instead of
checking group emptiness), so the lengths disagree and
assert_eq!(groups.len(), clusters.len()) panics.  The cluster step and
hence create return none (= panic) on this valid non-empty input. -/
theorem C2_cluster_assert_fails_on_zero_descriptor :
    lloydLoop [zeroDesc] 5 (List.replicate 1 []) [zeroDesc]
        = some ([[0]], [zeroDesc]) ∧
    (([[0]] : List (List Nat)).filter (fun g => !g.isEmpty)).length = 1 ∧
    (([zeroDesc] : List Desc).filter (fun c => !(c == zeroDesc))).length = 0 ∧
    cluster (fun _ _ => []) 2 1 5 5 [zeroDesc] [0] 1 ⟨[], 0, 0, 0⟩ = none ∧
    create (fun _ _ => []) 5 5 [zeroDesc] 2 1 = none := by
  exact ⟨by decide, by decide, by decide, by decide, by decide⟩

/-! ## Facts about accumulate / transform (claims C4 and C5) -/

theorem accumulate_length (v : Vocabulary) (tfuel : Nat) (di : Bool) :
    ∀ (fs : List Desc) (acc : List ℚ × List (List Nat)) r,
      accumulate v tfuel di fs acc = some r → r.1.length = acc.1.length := by
  intro fs
  induction fs with
  | nil => intro acc r h; simp [accumulate] at h; subst h; rfl
  | cons f rest ih =>
    intro acc r h
    simp only [accumulate] at h
    split at h
    · exact Option.noConfusion h
    · split at h
      · exact Option.noConfusion h
      · split at h
        · have := ih _ _ h
          simpa using this
        · exact Option.noConfusion h

theorem traverse_weight_mem (v : Vocabulary) (f : Desc) :
    ∀ (fuel : Nat) (b : Block), b ∈ v.blocks →
      ∀ r, traverse v f fuel b = some r →
        ∃ b' ∈ v.blocks, r.2.2 ∈ b'.children.weights := by
  intro fuel
  induction fuel with
  | zero => intro b _ r h; exact absurd h (by simp [traverse])
  | succ n ih =>
    intro b hb r h
    simp only [traverse] at h
    split at h
    · exact Option.noConfusion h
    case _ j hid =>
      split at h
      · exact Option.noConfusion h
      case _ b1 hblk =>
        exact ih b1 (List.get?_mem hblk) r h
    case _ ids hid =>
      split at h
      · exact Option.noConfusion h
      case _ wordId hlast =>
        split at h
        · exact Option.noConfusion h
        case _ w hw =>
          have hr : r = (ids, wordId, w) := by cases h; rfl
          subst hr
          exact ⟨b, hb, List.get?_mem hw⟩

theorem accumulate_nonneg (v : Vocabulary) (tfuel : Nat) (di : Bool)
    (hw : ∀ b ∈ v.blocks, ∀ w ∈ b.children.weights, 0 ≤ w) :
    ∀ (fs : List Desc) (acc : List ℚ × List (List Nat)) r,
      accumulate v tfuel di fs acc = some r →
      (∀ x ∈ acc.1, 0 ≤ x) → ∀ x ∈ r.1, 0 ≤ x := by
  intro fs
  induction fs with
  | nil => intro acc r h hp; simp [accumulate] at h; subst h; exact hp
  | cons f rest ih =>
    intro acc r h hp
    simp only [accumulate] at h
    split at h
    · exact Option.noConfusion h
    case _ root hroot =>
      split at h
      · exact Option.noConfusion h
      case _ tr htr =>
        split at h
        case isTrue hlt =>
          refine ih _ _ h ?_
          intro x hx
          rcases List.mem_or_eq_of_mem_set hx with hx' | hx'
          · exact hp x hx'
          · subst hx'
            have h1 : 0 ≤ acc.1.getD tr.2.1 0 := by
              rw [List.getD_eq_getElem _ _ hlt]
              exact hp _ (List.getElem_mem hlt)
            have h2 : 0 ≤ tr.2.2 := by
              obtain ⟨b', hb', hwmem⟩ :=
                traverse_weight_mem v f tfuel root (List.get?_mem hroot) tr htr
              exact hw b' hb' _ hwmem
            linarith
        case isFalse => exact Option.noConfusion h

theorem sum_zero_all_zero (l : List ℚ) (hnn : ∀ x ∈ l, 0 ≤ x)
    (hs : l.sum = 0) : l = List.replicate l.length 0 := by
  induction l with
  | nil => rfl
  | cons a t ih =>
    have hta : 0 ≤ a := hnn a (by simp)
    have htt : 0 ≤ t.sum := List.sum_nonneg (fun x hx => hnn x (by simp [hx]))
    have hsum : a + t.sum = 0 := by simpa using hs
    have ha : a = 0 := by linarith
    have ht : t.sum = 0 := by linarith
    have hrec := ih (fun x hx => hnn x (by simp [hx])) ht
    subst ha
    rw [List.length_cons, List.replicate_succ]
    exact congrArg (List.cons 0) hrec

/-! ## Structural invariants established by construction -/

/-- The Nat id carried by a Block node id. -/
def nidKey : NodeId → Option Nat
  | NodeId.block i => some i
  | NodeId.leaf _ => none

/-- Well-formedness of one child id relative to a block list and the leaf
counter: a Block child points strictly forward (larger id than its parent)
to a pushed block with a non-empty centroid list; a Leaf child carries a
path of the form prefix ++ [word id] with word id below nl and total length
at most levels. -/
def childOK (levels nl : Nat) (blocks : List Block) (selfBid : Nat) : NodeId → Prop
  | NodeId.block j => selfBid < j ∧
      ∃ b' ∈ blocks, b'.id = NodeId.block j ∧ b'.children.features ≠ []
  | NodeId.leaf p => (∃ q ℓ, p = q ++ [ℓ] ∧ ℓ < nl) ∧ p.length ≤ levels

/-- Well-formedness of one block: parallel child arrays of equal length, a
Block id, and well-formed children. -/
def blockOK (levels nl : Nat) (blocks : List Block) (b : Block) : Prop :=
  b.children.ids.length = b.children.features.length ∧
  b.children.weights.length = b.children.features.length ∧
  ∃ i, b.id = NodeId.block i ∧ ∀ c ∈ b.children.ids, childOK levels nl blocks i c

theorem childOK_mono {levels nl nl' selfBid : Nat} {blocks blocks' : List Block}
    {c : NodeId} (h : childOK levels nl blocks selfBid c) (hnl : nl ≤ nl')
    (hsub : ∀ b, b ∈ blocks → b ∈ blocks') : childOK levels nl' blocks' selfBid c := by
  cases c with
  | block j =>
    obtain ⟨h1, b', hb', h2, h3⟩ := h
    exact ⟨h1, b', hsub b' hb', h2, h3⟩
  | leaf p =>
    obtain ⟨⟨q, ℓ, hq, hl⟩, h2⟩ := h
    exact ⟨⟨q, ℓ, hq, lt_of_lt_of_le hl hnl⟩, h2⟩

theorem blockOK_mono {levels nl nl' : Nat} {blocks blocks' : List Block} {b : Block}
    (h : blockOK levels nl blocks b) (hnl : nl ≤ nl')
    (hsub : ∀ x, x ∈ blocks → x ∈ blocks') : blockOK levels nl' blocks' b := by
  obtain ⟨h1, h2, i, h3, h4⟩ := h
  exact ⟨h1, h2, i, h3, fun c hc => childOK_mono (h4 c hc) hnl hsub⟩

/-- Everything allocIds guarantees: length preservation, untouched blocks
and oracle counter, the freshly drawn Block ids being exactly the
consecutive range above the incoming counter (in order), the shape of
freshly drawn Leaf paths, and the leaf/block decision for each group. -/
theorem allocIds_spec (levels curr_level : Nat) (parent_ids : List Nat) :
    ∀ (gs : List (List Nat)) (s : BuildState),
      (allocIds levels curr_level parent_ids gs s).1.length = gs.length ∧
      (allocIds levels curr_level parent_ids gs s).2.blocks = s.blocks ∧
      (allocIds levels curr_level parent_ids gs s).2.ctr = s.ctr ∧
      s.num_blocks ≤ (allocIds levels curr_level parent_ids gs s).2.num_blocks ∧
      s.num_leaves ≤ (allocIds levels curr_level parent_ids gs s).2.num_leaves ∧
      (allocIds levels curr_level parent_ids gs s).1.filterMap nidKey =
        List.range' (s.num_blocks + 1)
          ((allocIds levels curr_level parent_ids gs s).2.num_blocks - s.num_blocks) ∧
      (∀ c ∈ (allocIds levels curr_level parent_ids gs s).1, ∀ p, c = NodeId.leaf p →
        ∃ ℓ, p = parent_ids.drop 1 ++ [ℓ] ∧
          ℓ < (allocIds levels curr_level parent_ids gs s).2.num_leaves) ∧
      (∀ c ∈ (allocIds levels curr_level parent_ids gs s).1, ∀ j, c = NodeId.block j →
        s.num_blocks < j) ∧
      (curr_level = levels → ∀ c ∈ (allocIds levels curr_level parent_ids gs s).1,
        ∃ p, c = NodeId.leaf p) ∧
      (∀ pr ∈ (allocIds levels curr_level parent_ids gs s).1.zip gs,
        ∀ j, pr.1 = NodeId.block j → pr.2.length ≠ 1) := by
  intro gs
  induction gs with
  | nil =>
    intro s
    refine ⟨rfl, rfl, rfl, le_refl _, le_refl _, ?_, ?_, ?_, ?_, ?_⟩
    · simp [allocIds]
    · intro c hc; exact absurd hc (by simp [allocIds])
    · intro c hc; exact absurd hc (by simp [allocIds])
    · intro _ c hc; exact absurd hc (by simp [allocIds])
    · intro pr hpr; exact absurd hpr (by simp [allocIds])
  | cons g rest ih =>
    intro s
    by_cases hleaf : (curr_level == levels || g.length == 1) = true
    · -- the head draws a leaf id
      have hstep : allocIds levels curr_level parent_ids (g :: rest) s =
          (NodeId.leaf (parent_ids.drop 1 ++ [s.num_leaves]) ::
            (allocIds levels curr_level parent_ids rest
              { s with num_leaves := s.num_leaves + 1 }).1,
           (allocIds levels curr_level parent_ids rest
              { s with num_leaves := s.num_leaves + 1 }).2) := by
        simp [allocIds, next_node_id, hleaf]
      obtain ⟨l1, l2, l3, l4, l5, l6, l7, l8, l9, l10⟩ :=
        ih { s with num_leaves := s.num_leaves + 1 }
      dsimp only at l2 l3 l4 l5 l6 l7 l8
      rw [hstep]
      dsimp only
      refine ⟨by simp [l1], l2, l3, l4, le_trans (by omega) l5, ?_, ?_, ?_, ?_, ?_⟩
      · simpa [nidKey] using l6
      · intro c hc p hp
        rcases List.mem_cons.mp hc with hc' | hc'
        · subst hc'
          cases hp
          exact ⟨s.num_leaves, rfl, lt_of_lt_of_le (by omega) l5⟩
        · exact l7 c hc' p hp
      · intro c hc j hj
        rcases List.mem_cons.mp hc with hc' | hc'
        · subst hc'; exact absurd hj (by simp)
        · exact l8 c hc' j hj
      · intro heq c hc
        rcases List.mem_cons.mp hc with hc' | hc'
        · exact ⟨_, hc'⟩
        · exact l9 heq c hc'
      · intro pr hpr j hj
        rcases List.mem_cons.mp hpr with hpr' | hpr'
        · subst hpr'; exact absurd hj (by simp)
        · exact l10 pr hpr' j hj
    · -- the head draws a block id
      have hstep : allocIds levels curr_level parent_ids (g :: rest) s =
          (NodeId.block (s.num_blocks + 1) ::
            (allocIds levels curr_level parent_ids rest
              { s with num_blocks := s.num_blocks + 1 }).1,
           (allocIds levels curr_level parent_ids rest
              { s with num_blocks := s.num_blocks + 1 }).2) := by
        simp only [allocIds, next_node_id, hleaf]
        simp
      obtain ⟨l1, l2, l3, l4, l5, l6, l7, l8, l9, l10⟩ :=
        ih { s with num_blocks := s.num_blocks + 1 }
      dsimp only at l2 l3 l4 l5 l6 l7 l8
      rw [hstep]
      dsimp only
      have hnb : s.num_blocks + 1 ≤
          (allocIds levels curr_level parent_ids rest
            { s with num_blocks := s.num_blocks + 1 }).2.num_blocks := l4
      refine ⟨by simp [l1], l2, l3, by omega, l5, ?_, ?_, ?_, ?_, ?_⟩
      · have : (allocIds levels curr_level parent_ids rest
            { s with num_blocks := s.num_blocks + 1 }).2.num_blocks - s.num_blocks =
            ((allocIds levels curr_level parent_ids rest
              { s with num_blocks := s.num_blocks + 1 }).2.num_blocks -
              (s.num_blocks + 1)) + 1 := by omega
        rw [this]
        simp only [List.filterMap_cons, nidKey]
        rw [List.range'_succ]
        exact congrArg (List.cons _) l6
      · intro c hc p hp
        rcases List.mem_cons.mp hc with hc' | hc'
        · subst hc'; exact absurd hp (by simp)
        · exact l7 c hc' p hp
      · intro c hc j hj
        rcases List.mem_cons.mp hc with hc' | hc'
        · subst hc'
          cases hj
          omega
        · have := l8 c hc' j hj
          omega
      · intro heq c hc
        exfalso
        apply hleaf
        simp [heq]
      · intro pr hpr j hj
        rcases List.mem_cons.mp hpr with hpr' | hpr'
        · subst hpr'
          intro hg1
          apply hleaf
          simp [hg1]
        · exact l10 pr hpr' j hj

theorem fst_lt_of_mem_enum {α : Type} {l : List α} {x : Nat × α}
    (hx : x ∈ l.enum) : x.1 < l.length := by
  have h := List.mem_enum_iff_get?.mp hx
  have := List.get?_eq_some.mp h
  exact this.1

theorem bestCluster_index_lt (clusters : List Desc) (f : Desc)
    (h : clusters ≠ []) : (bestCluster clusters f).1 < clusters.length := by
  have key : ∀ (l : List (Nat × Desc)) (acc : Nat × Nat), acc.1 < clusters.length →
      (∀ x ∈ l, x.1 < clusters.length) →
      (l.foldl (fun best jc =>
        if hamming jc.2 f < best.2 then (jc.1, hamming jc.2 f) else best) acc).1
        < clusters.length := by
    intro l
    induction l with
    | nil => intro acc h1 _; exact h1
    | cons x xs ih =>
      intro acc h1 h2
      simp only [List.foldl_cons]
      apply ih
      · by_cases hd : hamming x.2 f < acc.2
        · simpa [hd] using h2 x (by simp)
        · simpa [hd] using h1
      · intro y hy; exact h2 y (by simp [hy])
  exact key clusters.enum (0, 255) (List.length_pos.mpr h)
    (fun x hx => fst_lt_of_mem_enum hx)

theorem bestChild_index_lt (features : List Desc) (f : Desc)
    (h : features ≠ []) : (bestChild features f).2 < features.length := by
  have key : ∀ (l : List (Nat × Desc)) (acc : Nat × Nat), acc.2 < features.length →
      (∀ x ∈ l, x.1 < features.length) →
      (l.foldl (fun best jc =>
        if hamming f jc.2 < best.1 then (hamming f jc.2, jc.1) else best) acc).2
        < features.length := by
    intro l
    induction l with
    | nil => intro acc h1 _; exact h1
    | cons x xs ih =>
      intro acc h1 h2
      simp only [List.foldl_cons]
      apply ih
      · by_cases hd : hamming f x.2 < acc.1
        · simpa [hd] using h2 x (by simp)
        · simpa [hd] using h1
      · intro y hy; exact h2 y (by simp [hy])
  exact key features.enum (255, 0) (List.length_pos.mpr h)
    (fun x hx => fst_lt_of_mem_enum hx)

/-- The Lloyd loop only exits at a fixed point: the returned groups are
exactly the assignment induced by the returned clusters. -/
theorem lloydLoop_fixed (features : List Desc) :
    ∀ (fuel : Nat) (groups : List (List Nat)) (clusters : List Desc) G C,
      lloydLoop features fuel groups clusters = some (G, C) →
      assign features C = some G := by
  intro fuel
  induction fuel with
  | zero => intro g c G C h; exact Option.noConfusion h
  | succ n ih =>
    intro g c G C h
    simp only [lloydLoop] at h
    split at h
    · exact Option.noConfusion h
    case _ ng hng =>
      split at h
      case isTrue heq =>
        cases h
        rw [hng, heq]
      case isFalse => exact ih _ _ _ _ h

/-- An assignment of a non-empty feature list has at least one non-empty
group (the one its first feature falls into). -/
theorem assign_nonempty_group (features clusters : List Desc)
    (G : List (List Nat)) (h : assign features clusters = some G)
    (hf : features ≠ []) : ∃ g ∈ G, g ≠ [] := by
  simp only [assign] at h
  split at h
  · exact Option.noConfusion h
  case isFalse hcond =>
    have hc : clusters ≠ [] := fun hc => hcond ⟨hf, hc⟩
    obtain ⟨f0, rest, rfl⟩ : ∃ f0 rest, features = f0 :: rest := by
      cases features with
      | nil => exact absurd rfl hf
      | cons a l => exact ⟨a, l, rfl⟩
    have hlt : (bestCluster clusters f0).1 < clusters.length :=
      bestCluster_index_lt clusters f0 hc
    cases h
    refine ⟨((f0 :: rest).enum.filter
        (fun p => (bestCluster clusters p.2).1 == (bestCluster clusters f0).1)).map (·.1),
      List.mem_map.mpr ⟨(bestCluster clusters f0).1, by simpa using hlt, rfl⟩, ?_⟩
    have hmem : (0, f0) ∈ (f0 :: rest).enum.filter
        (fun p => (bestCluster clusters p.2).1 == (bestCluster clusters f0).1) := by
      apply List.mem_filter.mpr
      exact ⟨by simp [List.enum_cons], by simp⟩
    intro hemp
    rw [List.map_eq_nil] at hemp
    rw [hemp] at hmem
    exact absurd hmem (List.not_mem_nil _)

theorem filterMap_fst_zip {l1 : List NodeId} {l2 : List (List Nat)}
    (h : l1.length ≤ l2.length) :
    (l1.zip l2).filterMap (fun pr => nidKey pr.1) = l1.filterMap nidKey := by
  have h1 : (l1.zip l2).map Prod.fst = l1 := List.map_fst_zip l1 l2 h
  calc (l1.zip l2).filterMap (fun pr => nidKey pr.1)
      = (l1.zip l2).filterMap (nidKey ∘ Prod.fst) := rfl
    _ = ((l1.zip l2).map Prod.fst).filterMap nidKey := (List.filterMap_map _ _ _).symm
    _ = l1.filterMap nidKey := by rw [h1]

theorem block_mem_lt {ids : List NodeId} {a m j : Nat}
    (hfm : ids.filterMap nidKey = List.range' a m) {c : NodeId} (hc : c ∈ ids)
    (hj : c = NodeId.block j) : j < a + m := by
  subst hj
  have hmem : j ∈ ids.filterMap nidKey :=
    List.mem_filterMap.mpr ⟨NodeId.block j, hc, rfl⟩
  rw [hfm] at hmem
  obtain ⟨i, hi, rfl⟩ := List.mem_range'.mp hmem
  omega

/-- Postcondition of one cluster call at parent id p: the new blocks are
appended after the old ones, the counters only grow, every new block has a
Block id, the new block ids are a permutation of p together with the
freshly allocated consecutive id range, the subtree root is pushed first
with id p (and inherits non-emptiness of the feature set), and every new
block is well-formed relative to the final state. -/
def ClusterPost (levels : Nat) (features : List Desc) (p : Nat)
    (s s' : BuildState) : Prop :=
  ∃ nb, s'.blocks = s.blocks ++ nb ∧
    s.num_blocks ≤ s'.num_blocks ∧ s.num_leaves ≤ s'.num_leaves ∧
    (∀ b ∈ nb, ∃ i, b.id = NodeId.block i) ∧
    (nb.map idKey).Perm
      (p :: List.range' (s.num_blocks + 1) (s'.num_blocks - s.num_blocks)) ∧
    (∃ hd tl, nb = hd :: tl ∧ hd.id = NodeId.block p ∧
      (features ≠ [] → hd.children.features ≠ [])) ∧
    (∀ b ∈ nb, blockOK levels s'.num_leaves s'.blocks b)

/-- The full specification of cluster at a given depth fuel. -/
def ClusterSpec (O : Nat → List Desc → List Desc) (k levels lfuel dfuel : Nat) :
    Prop :=
  ∀ features parent_ids curr_level s s' p,
    cluster O k levels lfuel dfuel features parent_ids curr_level s = some s' →
    parent_ids.getLast? = some p → p ≤ s.num_blocks →
    parent_ids.length = curr_level → curr_level ≤ levels →
    ClusterPost levels features p s s'

theorem clusterKids_spec (O : Nat → List Desc → List Desc)
    (k levels lfuel dfuel : Nat) (IH : ClusterSpec O k levels lfuel dfuel)
    (features : List Desc) (parent_ids : List Nat) (curr_level : Nat)
    (hpl : parent_ids.length = curr_level) (hcl : curr_level < levels) :
    ∀ (pairs : List (NodeId × List Nat)) (t t' : BuildState),
      clusterKids (cluster O k levels lfuel dfuel) features parent_ids curr_level
        pairs t = some t' →
      (∀ pr ∈ pairs, ∀ j, pr.1 = NodeId.block j → j ≤ t.num_blocks ∧ pr.2 ≠ []) →
      ∃ nb, t'.blocks = t.blocks ++ nb ∧
        t.num_blocks ≤ t'.num_blocks ∧ t.num_leaves ≤ t'.num_leaves ∧
        (∀ b ∈ nb, ∃ i, b.id = NodeId.block i) ∧
        (nb.map idKey).Perm ((pairs.filterMap (fun pr => nidKey pr.1)) ++
          List.range' (t.num_blocks + 1) (t'.num_blocks - t.num_blocks)) ∧
        (∀ j, NodeId.block j ∈ pairs.map Prod.fst →
          ∃ b' ∈ nb, b'.id = NodeId.block j ∧ b'.children.features ≠ []) ∧
        (∀ b ∈ nb, blockOK levels t'.num_leaves t'.blocks b) := by
  intro pairs
  induction pairs with
  | nil =>
    intro t t' h _
    have ht : t = t' := by
      simpa [clusterKids] using h
    subst ht
    refine ⟨[], by simp, le_refl _, le_refl _, by simp, by simp, by simp, by simp⟩
  | cons pr rest ih =>
    intro t t' h hpre
    simp only [clusterKids] at h
    split at h
    case _ lp hlp =>
      obtain ⟨nb, hb, hnb, hnl, hall, hperm, hex, hok⟩ :=
        ih t t' h (fun q hq => hpre q (by simp [hq]))
      refine ⟨nb, hb, hnb, hnl, hall, ?_, ?_, hok⟩
      · simpa [List.filterMap_cons, hlp, nidKey] using hperm
      · intro j hj
        rcases List.mem_cons.mp hj with hj' | hj'
        · rw [hlp] at hj'; exact absurd hj'.symm (by simp)
        · exact hex j hj'
    case _ bid hbid =>
      split at h
      · exact Option.noConfusion h
      case _ t1 hrec =>
        obtain ⟨hble, hgne⟩ := hpre pr (by simp) bid hbid
        have hpost := IH (pr.2.map (fun j => features.getD j zeroDesc))
          (parent_ids ++ [bid]) (curr_level + 1) t t1 bid hrec
          (List.getLast?_concat _) hble (by simp [hpl]) (by omega)
        obtain ⟨nb1, hb1, hnb1, hnl1, hall1, hperm1, ⟨hd, tl, hhd, hhdid, hhdf⟩, hok1⟩ :=
          hpost
        obtain ⟨nb2, hb2, hnb2, hnl2, hall2, hperm2, hex2, hok2⟩ :=
          ih t1 t' h (fun q hq j hj => by
            obtain ⟨h1, h2⟩ := hpre q (by simp [hq]) j hj
            exact ⟨le_trans h1 hnb1, h2⟩)
        refine ⟨nb1 ++ nb2, ?_, by omega, by omega, ?_, ?_, ?_, ?_⟩
        · rw [hb2, hb1, List.append_assoc]
        · intro b hb
          rcases List.mem_append.mp hb with hb' | hb'
          · exact hall1 b hb'
          · exact hall2 b hb'
        · -- the permutation bookkeeping for the fresh block ids
          rw [List.map_append, List.filterMap_cons]
          have hbk : nidKey pr.1 = some bid := by rw [hbid]; rfl
          rw [hbk]
          have hr : List.range' (t.num_blocks + 1) (t1.num_blocks - t.num_blocks) ++
              List.range' (t1.num_blocks + 1) (t'.num_blocks - t1.num_blocks) =
              List.range' (t.num_blocks + 1) (t'.num_blocks - t.num_blocks) := by
            have e1 : t1.num_blocks + 1 =
                (t.num_blocks + 1) + (t1.num_blocks - t.num_blocks) := by omega
            have e2 : t'.num_blocks - t.num_blocks =
                (t'.num_blocks - t1.num_blocks) + (t1.num_blocks - t.num_blocks) := by
              omega
            rw [e1, e2]
            exact List.range'_append_1 _ _ _
          refine (hperm1.append hperm2).trans ?_
          simp only [List.cons_append]
          refine List.Perm.cons _ ?_
          have hstep : List.Perm
              ((List.range' (t.num_blocks + 1) (t1.num_blocks - t.num_blocks) ++
                rest.filterMap (fun pr => nidKey pr.1)) ++
                List.range' (t1.num_blocks + 1) (t'.num_blocks - t1.num_blocks))
              ((rest.filterMap (fun pr => nidKey pr.1) ++
                List.range' (t.num_blocks + 1) (t1.num_blocks - t.num_blocks)) ++
                List.range' (t1.num_blocks + 1) (t'.num_blocks - t1.num_blocks)) :=
            List.Perm.append_right _ List.perm_append_comm
          rw [← List.append_assoc]
          refine hstep.trans ?_
          rw [List.append_assoc, hr]
        · intro j hj
          rcases List.mem_cons.mp hj with hj' | hj'
          · have hjb : j = bid := by
              rw [hbid] at hj'
              cases hj'
              rfl
            subst hjb
            refine ⟨hd, by simp [hhd], hhdid, ?_⟩
            apply hhdf
            intro hmapnil
            rw [List.map_eq_nil_iff] at hmapnil
            exact hgne hmapnil
          · obtain ⟨b', hb', hid', hf'⟩ := hex2 j hj'
            exact ⟨b', by simp [hb'], hid', hf'⟩
        · intro b hb
          rcases List.mem_append.mp hb with hb' | hb'
          · refine blockOK_mono (hok1 b hb') hnl2 ?_
            intro x hx
            rw [hb2]
            exact List.mem_append_left _ hx
          · exact hok2 b hb'

theorem cluster_spec (O : Nat → List Desc → List Desc) (k levels lfuel : Nat) :
    ∀ dfuel, ClusterSpec O k levels lfuel dfuel := by
  intro dfuel
  induction dfuel with
  | zero =>
    intro features parent_ids curr_level s s' p h
    exact fun _ _ _ _ => Option.noConfusion h
  | succ n ih =>
    intro features parent_ids curr_level s s' p h hlast hple hplen hcl
    have hpne : parent_ids ≠ [] := by
      intro he; rw [he] at hlast; exact Option.noConfusion hlast
    simp only [cluster] at h
    split at h
    · exact Option.noConfusion h
    case _ gc hgc =>
      split at h
      case isFalse => exact Option.noConfusion h
      case isTrue hlen =>
        split at h
        · exact Option.noConfusion h
        case _ pid hpid =>
          have hpp : p = pid := by
            rw [hlast] at hpid
            exact Option.some.inj hpid
          subst hpp
          obtain ⟨a1, a2, a3, a4, a5, a6, a7, a8, a9, a10⟩ :=
            allocIds_spec levels curr_level parent_ids
              (gc.1.filter (fun g => !g.isEmpty)) { s with ctr := s.ctr + 1 }
          dsimp only at a2 a4 a5 a6 a8
          have hfix : assign features gc.2 = some gc.1 :=
            lloydLoop_fixed features lfuel _ _ gc.1 gc.2 (by rw [hgc])
          have hCne : features ≠ [] →
              gc.2.filter (fun c => !(c == zeroDesc)) ≠ [] := by
            intro hf
            obtain ⟨g, hgG, hgne⟩ := assign_nonempty_group features gc.2 gc.1 hfix hf
            have hgmem : g ∈ gc.1.filter (fun g => !g.isEmpty) :=
              List.mem_filter.mpr ⟨hgG, by simp [hgne]⟩
            intro hC
            rw [hC, List.length_nil, List.length_eq_zero] at hlen
            rw [hlen] at hgmem
            exact absurd hgmem (List.not_mem_nil _)
          have hleafOK : ∀ c ∈ (allocIds levels curr_level parent_ids
              (gc.1.filter (fun g => !g.isEmpty)) { s with ctr := s.ctr + 1 }).1,
              ∀ q, c = NodeId.leaf q →
              (∃ pre ℓ, q = pre ++ [ℓ] ∧
                ℓ < (allocIds levels curr_level parent_ids
                  (gc.1.filter (fun g => !g.isEmpty))
                  { s with ctr := s.ctr + 1 }).2.num_leaves) ∧
              q.length ≤ levels := by
            intro c hc q hq
            obtain ⟨ℓ, hq', hl⟩ := a7 c hc q hq
            refine ⟨⟨parent_ids.drop 1, ℓ, hq', hl⟩, ?_⟩
            rw [hq', List.length_append, List.length_drop, hplen]
            have : 1 ≤ curr_level := by
              rw [← hplen]
              exact List.length_pos.mpr hpne
            simp only [List.length_cons, List.length_nil]
            omega
          split at h
          case isTrue hlv =>
            -- recursive case: children are processed by clusterKids
            have hpre : ∀ pr ∈ (allocIds levels curr_level parent_ids
                (gc.1.filter (fun g => !g.isEmpty)) { s with ctr := s.ctr + 1 }).1.zip
                  (gc.1.filter (fun g => !g.isEmpty)),
                ∀ j, pr.1 = NodeId.block j →
                  j ≤ ({ (allocIds levels curr_level parent_ids
                    (gc.1.filter (fun g => !g.isEmpty))
                    { s with ctr := s.ctr + 1 }).2 with
                    blocks := (allocIds levels curr_level parent_ids
                      (gc.1.filter (fun g => !g.isEmpty))
                      { s with ctr := s.ctr + 1 }).2.blocks ++
                      [{ id := NodeId.block p,
                         children :=
                           { weights := List.replicate
                               (gc.1.filter (fun g => !g.isEmpty)).length 1
                             ids := (allocIds levels curr_level parent_ids
                               (gc.1.filter (fun g => !g.isEmpty))
                               { s with ctr := s.ctr + 1 }).1
                             cluster_size := (gc.1.filter (fun g => !g.isEmpty)).map
                               List.length
                             features := gc.2.filter (fun c => !(c == zeroDesc)) } }] } :
                    BuildState).num_blocks ∧ pr.2 ≠ [] := by
              intro q hq j hj
              have hq1 : q.1 ∈ (allocIds levels curr_level parent_ids
                  (gc.1.filter (fun g => !g.isEmpty)) { s with ctr := s.ctr + 1 }).1 :=
                (List.of_mem_zip hq).1
              have hq2 : q.2 ∈ gc.1.filter (fun g => !g.isEmpty) :=
                (List.of_mem_zip hq).2
              constructor
              · have := block_mem_lt a6 hq1 hj
                dsimp only
                omega
              · have := (List.mem_filter.mp hq2).2
                simpa using this
            obtain ⟨nb2, kb, knb, knl, kall, kperm, kex, kok⟩ :=
              clusterKids_spec O k levels lfuel n ih features parent_ids curr_level
                hplen hlv _ _ _ h hpre
            dsimp only at kb knb knl kok kperm
            refine ⟨{ id := NodeId.block p,
                      children :=
                        { weights := List.replicate
                            (gc.1.filter (fun g => !g.isEmpty)).length 1
                          ids := (allocIds levels curr_level parent_ids
                            (gc.1.filter (fun g => !g.isEmpty))
                            { s with ctr := s.ctr + 1 }).1
                          cluster_size := (gc.1.filter (fun g => !g.isEmpty)).map
                            List.length
                          features := gc.2.filter (fun c => !(c == zeroDesc)) } } :: nb2,
              ?_, ?_, ?_, ?_, ?_, ?_, ?_⟩
            · rw [kb, a2, List.append_assoc]
              rfl
            · omega
            · omega
            · intro b hb
              rcases List.mem_cons.mp hb with hb' | hb'
              · exact ⟨p, by rw [hb']⟩
              · exact kall b hb'
            · -- permutation of the new block ids
              rw [List.map_cons]
              refine List.Perm.cons _ ?_
              refine kperm.trans ?_
              rw [filterMap_fst_zip (le_of_eq a1), a6]
              have heq : List.range' (s.num_blocks + 1)
                  ((allocIds levels curr_level parent_ids
                    (gc.1.filter (fun g => !g.isEmpty))
                    { s with ctr := s.ctr + 1 }).2.num_blocks - s.num_blocks) ++
                  List.range' ((allocIds levels curr_level parent_ids
                    (gc.1.filter (fun g => !g.isEmpty))
                    { s with ctr := s.ctr + 1 }).2.num_blocks + 1)
                    (s'.num_blocks - (allocIds levels curr_level parent_ids
                      (gc.1.filter (fun g => !g.isEmpty))
                      { s with ctr := s.ctr + 1 }).2.num_blocks) =
                  List.range' (s.num_blocks + 1) (s'.num_blocks - s.num_blocks) := by
                have e1 : (allocIds levels curr_level parent_ids
                    (gc.1.filter (fun g => !g.isEmpty))
                    { s with ctr := s.ctr + 1 }).2.num_blocks + 1 =
                    (s.num_blocks + 1) + ((allocIds levels curr_level parent_ids
                      (gc.1.filter (fun g => !g.isEmpty))
                      { s with ctr := s.ctr + 1 }).2.num_blocks - s.num_blocks) := by
                  omega
                have e2 : s'.num_blocks - s.num_blocks =
                    (s'.num_blocks - (allocIds levels curr_level parent_ids
                      (gc.1.filter (fun g => !g.isEmpty))
                      { s with ctr := s.ctr + 1 }).2.num_blocks) +
                    ((allocIds levels curr_level parent_ids
                      (gc.1.filter (fun g => !g.isEmpty))
                      { s with ctr := s.ctr + 1 }).2.num_blocks - s.num_blocks) := by
                  omega
                rw [e1, e2]
                exact List.range'_append_1 _ _ _
              rw [heq]
            · refine ⟨_, nb2, rfl, rfl, fun hf => hCne hf⟩
            · intro b hb
              rcases List.mem_cons.mp hb with hb' | hb'
              · -- the freshly pushed parent block is well-formed
                subst hb'
                refine ⟨a1.trans hlen, by simpa using hlen, p, rfl, ?_⟩
                intro c hc
                cases hcc : c with
                | block j =>
                  subst hcc
                  constructor
                  · have := a8 _ hc j rfl
                    omega
                  · have hmem : NodeId.block j ∈ ((allocIds levels curr_level parent_ids
                        (gc.1.filter (fun g => !g.isEmpty))
                        { s with ctr := s.ctr + 1 }).1.zip
                          (gc.1.filter (fun g => !g.isEmpty))).map Prod.fst := by
                      rw [List.map_fst_zip _ _ (le_of_eq a1)]
                      exact hc
                    obtain ⟨b', hb', hbid', hbf'⟩ := kex j hmem
                    refine ⟨b', ?_, hbid', hbf'⟩
                    rw [kb]
                    exact List.mem_append_right _ hb'
                | leaf q =>
                  subst hcc
                  obtain ⟨⟨pre, ℓ, hsh, hl⟩, hlen'⟩ := hleafOK _ hc q rfl
                  exact ⟨⟨pre, ℓ, hsh, by omega⟩, hlen'⟩
              · exact kok b hb'
          case isFalse hlv =>
            -- terminal case: curr_level = levels, every child is a leaf
            have heqlv : curr_level = levels := by omega
            have hs' : s' = { (allocIds levels curr_level parent_ids
                (gc.1.filter (fun g => !g.isEmpty)) { s with ctr := s.ctr + 1 }).2 with
                blocks := (allocIds levels curr_level parent_ids
                  (gc.1.filter (fun g => !g.isEmpty))
                  { s with ctr := s.ctr + 1 }).2.blocks ++
                  [{ id := NodeId.block p,
                     children :=
                       { weights := List.replicate
                           (gc.1.filter (fun g => !g.isEmpty)).length 1
                         ids := (allocIds levels curr_level parent_ids
                           (gc.1.filter (fun g => !g.isEmpty))
                           { s with ctr := s.ctr + 1 }).1
                         cluster_size := (gc.1.filter (fun g => !g.isEmpty)).map
                           List.length
                         features := gc.2.filter (fun c => !(c == zeroDesc)) } }] } := by
              exact (Option.some.inj h).symm
            have hm0 : (allocIds levels curr_level parent_ids
                (gc.1.filter (fun g => !g.isEmpty))
                { s with ctr := s.ctr + 1 }).2.num_blocks = s.num_blocks := by
              have hnil : (allocIds levels curr_level parent_ids
                  (gc.1.filter (fun g => !g.isEmpty))
                  { s with ctr := s.ctr + 1 }).1.filterMap nidKey = [] := by
                rw [List.filterMap_eq_nil]
                intro c hc
                obtain ⟨q, hq⟩ := a9 heqlv c hc
                rw [hq]
                rfl
              rw [hnil] at a6
              have := (List.range'_eq_nil).mp a6.symm
              omega
            refine ⟨[{ id := NodeId.block p,
                       children :=
                         { weights := List.replicate
                             (gc.1.filter (fun g => !g.isEmpty)).length 1
                           ids := (allocIds levels curr_level parent_ids
                             (gc.1.filter (fun g => !g.isEmpty))
                             { s with ctr := s.ctr + 1 }).1
                           cluster_size := (gc.1.filter (fun g => !g.isEmpty)).map
                             List.length
                           features := gc.2.filter (fun c => !(c == zeroDesc)) } }],
              ?_, ?_, ?_, ?_, ?_, ?_, ?_⟩
            · rw [hs']
              dsimp only
              rw [a2]
            · rw [hs']; dsimp only; omega
            · rw [hs']; dsimp only; omega
            · intro b hb
              rcases List.mem_cons.mp hb with hb' | hb'
              · exact ⟨p, by rw [hb']⟩
              · exact absurd hb' (List.not_mem_nil _)
            · have : s'.num_blocks - s.num_blocks = 0 := by
                rw [hs']; dsimp only; omega
              rw [this]
              simp [idKey]
            · exact ⟨_, [], rfl, rfl, fun hf => hCne hf⟩
            · intro b hb
              rcases List.mem_cons.mp hb with hb' | hb'
              · subst hb'
                refine ⟨a1.trans hlen, by simpa using hlen, p, rfl, ?_⟩
                intro c hc
                cases hcc : c with
                | block j =>
                  subst hcc
                  obtain ⟨q, hq⟩ := a9 heqlv _ hc
                  exact absurd hq (by simp)
                | leaf q =>
                  subst hcc
                  obtain ⟨⟨pre, ℓ, hsh, hl⟩, hlen'⟩ := hleafOK _ hc q rfl
                  refine ⟨⟨pre, ℓ, hsh, ?_⟩, hlen'⟩
                  rw [hs']
                  dsimp only
                  omega
              · exact absurd hb' (List.not_mem_nil _)

/-- Global shape of a constructed Vocabulary: every block sits at the index
given by its own Block id, the block-list length matches the block counter,
and every block is well-formed. -/
def vocOK (v : Vocabulary) : Prop :=
  (∀ i (hi : i < v.blocks.length), (v.blocks.get ⟨i, hi⟩).id = NodeId.block i) ∧
  v.blocks.length = v.num_blocks + 1 ∧
  ∀ b ∈ v.blocks, blockOK v.levels v.num_leaves v.blocks b

theorem create_spec (O : Nat → List Desc → List Desc) (lfuel dfuel : Nat)
    (features : List Desc) (k l : Nat) (v : Vocabulary)
    (h : create O lfuel dfuel features k l = some v) (hl : 1 ≤ l) :
    vocOK v ∧ v.k = k ∧ v.levels = l ∧
    (features ≠ [] → ∃ hd tl, v.blocks = hd :: tl ∧ hd.id = NodeId.block 0 ∧
      hd.children.features ≠ []) := by
  simp only [create] at h
  split at h
  · exact Option.noConfusion h
  case _ st hclu =>
    split at h
    case isFalse => exact Option.noConfusion h
    case isTrue hall =>
      have hv : v = { blocks := sortBlocks st.blocks, k := k, levels := l,
                      num_blocks := st.num_blocks,
                      num_leaves := st.num_leaves } :=
        (Option.some.inj h).symm
      obtain ⟨nb, hnb, hmb, hml, hallb, hperm, ⟨hd, tl, hhd, hhdid, hhdf⟩, hok⟩ :=
        cluster_spec O k l lfuel dfuel features [0] 1 ⟨[], 0, 0, 0⟩ st 0 hclu rfl
          (Nat.le_refl 0) rfl hl
      have hnbeq : st.blocks = nb := by simpa using hnb
      haveI instTot : IsTotal Block (fun a b => idKey a ≤ idKey b) :=
        ⟨fun a b => Nat.le_total _ _⟩
      haveI instTrans : IsTrans Block (fun a b => idKey a ≤ idKey b) :=
        ⟨fun a b c => Nat.le_trans⟩
      have hsortperm : List.Perm (sortBlocks st.blocks) st.blocks :=
        List.perm_insertionSort _ _
      have hkeysperm : List.Perm ((sortBlocks st.blocks).map idKey)
          (List.range (st.num_blocks + 1)) := by
        refine (hsortperm.map idKey).trans ?_
        rw [hnbeq]
        refine hperm.trans ?_
        rw [List.range_eq_range', List.range'_succ]
        exact List.Perm.refl _
      have hkeyssorted : List.Sorted (· ≤ ·) ((sortBlocks st.blocks).map idKey) := by
        have hs : List.Sorted (fun a b => idKey a ≤ idKey b)
            (sortBlocks st.blocks) := List.sorted_insertionSort _ _
        exact List.pairwise_map.mpr hs
      have hkeys : (sortBlocks st.blocks).map idKey = List.range (st.num_blocks + 1) :=
        List.eq_of_perm_of_sorted hkeysperm hkeyssorted (List.sorted_le_range _)
      have hlength : (sortBlocks st.blocks).length = st.num_blocks + 1 := by
        have := congrArg List.length hkeys
        simpa using this
      have hidx : ∀ i (hi : i < (sortBlocks st.blocks).length),
          ((sortBlocks st.blocks).get ⟨i, hi⟩).id = NodeId.block i := by
        intro i hi
        have hallb' : ∀ b ∈ st.blocks, ∃ j, b.id = NodeId.block j := by
          rw [hnbeq]; exact hallb
        have hbmem : (sortBlocks st.blocks).get ⟨i, hi⟩ ∈ st.blocks :=
          hsortperm.subset (List.get_mem _ _ _)
        obtain ⟨j, hj⟩ := hallb' _ hbmem
        have hkey : idKey ((sortBlocks st.blocks).get ⟨i, hi⟩) = j := by
          unfold idKey
          rw [hj]
        have hgeti : idKey ((sortBlocks st.blocks).get ⟨i, hi⟩) = i := by
          have h2 := List.get_of_eq hkeys ⟨i, by simpa using hi⟩
          simp only [List.get_eq_getElem, List.getElem_map, List.getElem_range] at h2
          simpa using h2
        have hji : j = i := hkey.symm.trans hgeti
        rw [hj, hji]
      have hmemsort : ∀ b, b ∈ sortBlocks st.blocks ↔ b ∈ st.blocks :=
        fun b => hsortperm.mem_iff
      refine ⟨⟨?_, ?_, ?_⟩, by rw [hv], by rw [hv], ?_⟩
      · rw [hv]; exact hidx
      · rw [hv]; exact hlength
      · rw [hv]
        intro b hb
        dsimp only at hb ⊢
        have hbnb : b ∈ nb := by rw [← hnbeq]; exact (hmemsort b).mp hb
        refine blockOK_mono (hok b hbnb) (le_refl _) ?_
        intro x hx
        exact (hmemsort x).mpr hx
      · intro hf
        have hdmem0 : hd ∈ st.blocks := by rw [hnbeq, hhd]; simp
        have hdmem : hd ∈ sortBlocks st.blocks := (hmemsort hd).mpr hdmem0
        obtain ⟨⟨j, hjlt⟩, hget⟩ := List.mem_iff_get.mp hdmem
        have hgetj : idKey ((sortBlocks st.blocks).get ⟨j, hjlt⟩) = j := by
          have h2 := List.get_of_eq hkeys ⟨j, by simpa using hjlt⟩
          simp only [List.get_eq_getElem, List.getElem_map, List.getElem_range] at h2
          simpa using h2
        have hj0 : j = 0 := by
          rw [hget] at hgetj
          have hhd0 : idKey hd = 0 := by simp [idKey, hhdid]
          rw [hhd0] at hgetj
          exact hgetj.symm
        subst hj0
        cases hsb : sortBlocks st.blocks with
        | nil => rw [hsb] at hjlt; exact absurd hjlt (by simp)
        | cons b0 bt =>
          have hb0 : b0 = hd := by
            have h0 := List.get_of_eq hsb ⟨0, hjlt⟩
            rw [hget] at h0
            simpa using h0.symm
          refine ⟨hd, bt, ?_, hhdid, hhdf hf⟩
          rw [hv]
          dsimp only
          rw [hsb, hb0]

/-- On a well-formed vocabulary the per-feature descent always reaches a
leaf whose word id is in range: block children point strictly forward, so
fuel covering the remaining ids suffices. -/
theorem traverse_ok (v : Vocabulary) (hok : vocOK v) (f : Desc) :
    ∀ (fuel : Nat) (b : Block) (i : Nat), b ∈ v.blocks → b.id = NodeId.block i →
      b.children.features ≠ [] → v.blocks.length - i ≤ fuel →
      ∃ r, traverse v f fuel b = some r ∧ r.2.1 < v.num_leaves := by
  obtain ⟨hidx, hlen, hbok⟩ := hok
  intro fuel
  induction fuel with
  | zero =>
    intro b i hb hbid hbf hfu
    exfalso
    obtain ⟨⟨j, hjlt⟩, hget⟩ := List.mem_iff_get.mp hb
    have hidj := hidx j hjlt
    rw [hget, hbid] at hidj
    have hij : i = j := by simpa using hidj
    omega
  | succ n ih =>
    intro b i hb hbid hbf hfu
    obtain ⟨hl1, hl2, i', hbid', hch⟩ := hbok b hb
    have hii : i' = i := by
      rw [hbid] at hbid'
      simpa using hbid'.symm
    subst hii
    have hilt : i' < v.blocks.length := by
      obtain ⟨⟨j, hjlt⟩, hget⟩ := List.mem_iff_get.mp hb
      have hidj := hidx j hjlt
      rw [hget, hbid'] at hidj
      have : i' = j := by simpa using hidj
      omega
    have hbcf : (bestChild b.children.features f).2 < b.children.features.length :=
      bestChild_index_lt _ f hbf
    have hbc : (bestChild b.children.features f).2 < b.children.ids.length := by
      rw [hl1]; exact hbcf
    have hcsome : b.children.ids.get? (bestChild b.children.features f).2 =
        some (b.children.ids.get ⟨(bestChild b.children.features f).2, hbc⟩) :=
      List.get?_eq_get hbc
    have hcmem : b.children.ids.get ⟨(bestChild b.children.features f).2, hbc⟩ ∈
        b.children.ids := List.get_mem _ _ _
    have hcok := hch _ hcmem
    cases hcc : b.children.ids.get ⟨(bestChild b.children.features f).2, hbc⟩ with
    | block j =>
      rw [hcc] at hcok
      obtain ⟨hij, b', hb', hbid'', hbf'⟩ := hcok
      obtain ⟨⟨j2, hj2⟩, hget2⟩ := List.mem_iff_get.mp hb'
      have hidj2 := hidx j2 hj2
      rw [hget2, hbid''] at hidj2
      have hjj2 : j = j2 := by simpa using hidj2
      have hjlt : j < v.blocks.length := by omega
      have hbget : v.blocks.get? j = some b' := by
        subst hjj2
        rw [List.get?_eq_get hj2, hget2]
      obtain ⟨r, hr, hrlt⟩ := ih b' j hb' hbid'' hbf' (by omega)
      refine ⟨r, ?_, hrlt⟩
      simp only [traverse, hcsome, hcc, hbget]
      exact hr
    | leaf q =>
      rw [hcc] at hcok
      obtain ⟨⟨pre, ℓ, hq, hl⟩, hqlen⟩ := hcok
      have hqlast : q.getLast? = some ℓ := by
        rw [hq]; exact List.getLast?_concat _
      have hwlt : (bestChild b.children.features f).2 < b.children.weights.length := by
        rw [hl2]; exact hbcf
      have hwsome : b.children.weights.get? (bestChild b.children.features f).2 =
          some (b.children.weights.get ⟨(bestChild b.children.features f).2, hwlt⟩) :=
        List.get?_eq_get hwlt
      refine ⟨(q, ℓ, b.children.weights.get
        ⟨(bestChild b.children.features f).2, hwlt⟩), ?_, hl⟩
      simp only [traverse, hcsome, hcc, hqlast, hwsome]

/-- On a well-formed vocabulary with a non-empty root, accumulate succeeds
on any feature list once the BoW has length num_leaves. -/
theorem accumulate_ok (v : Vocabulary) (hok : vocOK v)
    (hroot : ∃ hd tl, v.blocks = hd :: tl ∧ hd.id = NodeId.block 0 ∧
      hd.children.features ≠ [])
    (tfuel : Nat) (htf : v.blocks.length ≤ tfuel) (di : Bool) :
    ∀ (fs : List Desc) (bow : List ℚ) (dx : List (List Nat)),
      bow.length = v.num_leaves →
      ∃ r, accumulate v tfuel di fs (bow, dx) = some r := by
  intro fs
  induction fs with
  | nil => intro bow dx _; exact ⟨(bow, dx), rfl⟩
  | cons f rest ih =>
    intro bow dx hbl
    obtain ⟨hd, tl, hbs, hhdid, hhdf⟩ := hroot
    have hget0 : v.blocks.get? 0 = some hd := by rw [hbs]; rfl
    have hdmem : hd ∈ v.blocks := by rw [hbs]; simp
    obtain ⟨r, htr, hrlt⟩ := traverse_ok v hok f tfuel hd 0 hdmem hhdid hhdf
      (by omega)
    obtain ⟨r2, hacc⟩ := ih (bow.set r.2.1 (bow.getD r.2.1 0 + r.2.2))
      (if di then dx ++ [r.1] else dx) (by rw [List.length_set]; exact hbl)
    refine ⟨r2, ?_⟩
    simp only [accumulate, hget0, htr]
    rw [if_pos (by rw [hbl]; exact hrlt)]
    exact hacc

/-- Non-empty queries on a vocabulary constructed from a non-empty feature
set always succeed (with fuel covering the block list). -/
theorem transform_inner_ok (O : Nat → List Desc → List Desc)
    (lfuel dfuel : Nat) (features : List Desc) (k l : Nat) (v : Vocabulary)
    (h : create O lfuel dfuel features k l = some v) (hf : features ≠ [])
    (hl : 1 ≤ l) (q : List Desc) (hq : q ≠ []) (tfuel : Nat)
    (htf : v.blocks.length ≤ tfuel) (di : Bool) :
    ∃ r, transform_inner v tfuel q di = RRes.ok r := by
  obtain ⟨hok, _, _, hroot⟩ := create_spec O lfuel dfuel features k l v h hl
  obtain ⟨r, hacc⟩ := accumulate_ok v hok (hroot hf) tfuel htf di q
    (List.replicate v.num_leaves 0) [] (by simp)
  refine ⟨if 0 < r.1.sum then (r.1.map (fun w => w * (1 / r.1.sum)), r.2) else r, ?_⟩
  simp only [transform_inner]
  rw [if_neg hq, hacc]
  dsimp only
  by_cases hs : 0 < r.1.sum
  · rw [if_pos hs, if_pos hs]
  · rw [if_neg hs, if_neg hs]

/-- transform_inner yields an error exactly on the empty input, and that
error is always NoFeatures. -/
theorem transform_inner_err_iff (v : Vocabulary) (tfuel : Nat)
    (fs : List Desc) (di : Bool) (e : BowErr) :
    transform_inner v tfuel fs di = RRes.err e ↔
      (fs = [] ∧ e = BowErr.noFeatures) := by
  constructor
  · intro h
    by_cases hfs : fs = []
    · simp only [transform_inner, if_pos hfs] at h
      have : BowErr.noFeatures = e := by
        cases h; rfl
      exact ⟨hfs, this.symm⟩
    · exfalso
      simp only [transform_inner, if_neg hfs] at h
      split at h
      · exact RRes.noConfusion h
      · split at h
        · exact RRes.noConfusion h
        · exact RRes.noConfusion h
  · rintro ⟨rfl, rfl⟩
    simp [transform_inner]

/-! ## Concrete data shared by the witnesses -/

/-- Test descriptor: all bits set. -/
def descA : Desc := List.replicate 32 255

/-- Test descriptor: first byte set, rest clear (Hamming distance 248 from
descA). -/
def descB : Desc := 255 :: List.replicate 31 0

/-- A trivial seeding oracle; the concrete builds below never reach the
randomized branch (feature count stays at most k). -/
def oracle0 : Nat → List Desc → List Desc := fun _ _ => []

/-- The vocabulary that create(oracle0, [descA, descB], k = 2, levels = 1)
produces: one root block whose two children are the leaves 0 and 1. -/
def vAB : Vocabulary :=
  { blocks := [{ id := NodeId.block 0,
                 children := { features := [descA, descB], weights := [1, 1],
                               cluster_size := [1, 1],
                               ids := [NodeId.leaf [0], NodeId.leaf [1]] } }],
    k := 2, levels := 1, num_blocks := 0, num_leaves := 2 }

theorem createAB : create oracle0 9 9 [descA, descB] 2 1 = some vAB := by
  decide

/-! ## Claim theorems C4, C5, C6, C7, C10 -/

/-- C4: transform and transform_with_direct_idx return the NoFeatures error
exactly when the input feature sequence is empty, and on a Vocabulary built
by create from a non-empty feature set (with levels ≥ 1, the documented
contract of create) every non-empty query returns Ok; the fuel hypothesis
v.blocks.length ≤ tfuel stands for the source's unbounded descent loop,
which is proved to need at most that many steps. -/
theorem C4_noFeatures_iff_empty_and_ok_on_created :
    (∀ (v : Vocabulary) (tfuel : Nat) (fs : List Desc),
      (transform v tfuel fs = RRes.err BowErr.noFeatures ↔ fs = []) ∧
      (transform_with_direct_idx v tfuel fs = RRes.err BowErr.noFeatures ↔
        fs = [])) ∧
    (∀ (O : Nat → List Desc → List Desc) (lfuel dfuel : Nat)
      (features : List Desc) (k l : Nat) (v : Vocabulary),
      create O lfuel dfuel features k l = some v → features ≠ [] → 1 ≤ l →
      ∀ (q : List Desc) (tfuel : Nat), q ≠ [] → v.blocks.length ≤ tfuel →
        (∃ bow, transform v tfuel q = RRes.ok bow) ∧
        (∃ r, transform_with_direct_idx v tfuel q = RRes.ok r)) := by
  constructor
  · intro v tfuel fs
    have key : ∀ di, transform_inner v tfuel fs di = RRes.err BowErr.noFeatures ↔
        fs = [] := by
      intro di
      rw [transform_inner_err_iff]
      simp
    constructor
    · constructor
      · intro h
        unfold transform at h
        split at h
        · exact RRes.noConfusion h
        case _ e heq =>
          have he : e = BowErr.noFeatures := by cases h; rfl
          subst he
          exact (key false).mp heq
        · exact RRes.noConfusion h
      · intro h
        subst h
        unfold transform
        rw [(transform_inner_err_iff v tfuel [] false BowErr.noFeatures).mpr
          ⟨rfl, rfl⟩]
    · unfold transform_with_direct_idx
      exact key true
  · intro O lfuel dfuel features k l v hc hf hl q tfuel hq htf
    obtain ⟨r, hr⟩ := transform_inner_ok O lfuel dfuel features k l v hc hf hl
      q hq tfuel htf false
    obtain ⟨r2, hr2⟩ := transform_inner_ok O lfuel dfuel features k l v hc hf hl
      q hq tfuel htf true
    refine ⟨⟨r.1, ?_⟩, ⟨r2, hr2⟩⟩
    unfold transform
    rw [hr]

theorem C4_noFeatures_iff_empty_and_ok_on_created_witness :
    (transform vAB 2 ([] : List Desc) = RRes.err BowErr.noFeatures ↔
      ([] : List Desc) = []) ∧
    create oracle0 9 9 [descA, descB] 2 1 = some vAB ∧
    ([descA, descB] : List Desc) ≠ [] ∧ 1 ≤ 1 ∧
    ([descA] : List Desc) ≠ [] ∧ vAB.blocks.length ≤ 2 ∧
    (∃ bow, transform vAB 2 [descA] = RRes.ok bow) ∧
    (∃ r, transform_with_direct_idx vAB 2 [descA] = RRes.ok r) :=
  ⟨(C4_noFeatures_iff_empty_and_ok_on_created.1 vAB 2 []).1,
   createAB, by decide, by decide, by decide, by decide,
   (C4_noFeatures_iff_empty_and_ok_on_created.2 oracle0 9 9 [descA, descB] 2 1
     vAB createAB (by decide) (by decide) [descA] 2 (by decide) (by decide)).1,
   (C4_noFeatures_iff_empty_and_ok_on_created.2 oracle0 9 9 [descA, descB] 2 1
     vAB createAB (by decide) (by decide) [descA] 2 (by decide) (by decide)).2⟩

/-- C5: whenever transform succeeds (with non-negative weights, as
construction always produces), the returned BoW has length num_leaves and
equals the per-word accumulated weights divided by their total sum; when
that sum is zero every entry is left zero. -/
theorem C5_transform_l1_normalised (v : Vocabulary) (tfuel : Nat)
    (features : List Desc) (bow : List ℚ)
    (hw : ∀ b ∈ v.blocks, ∀ w ∈ b.children.weights, 0 ≤ w)
    (h : transform v tfuel features = RRes.ok bow) :
    bow.length = v.num_leaves ∧
    ∃ acc dx, accumulate v tfuel false features
        (List.replicate v.num_leaves 0, []) = some (acc, dx) ∧
      acc.length = v.num_leaves ∧
      (0 < acc.sum → bow = acc.map (fun w => w / acc.sum)) ∧
      (acc.sum = 0 → bow = List.replicate v.num_leaves 0) := by
  unfold transform at h
  split at h
  case _ r hti =>
    have hbow : bow = r.1 := by cases h; rfl
    subst hbow
    unfold transform_inner at hti
    split at hti
    · exact absurd hti (by simp)
    case isFalse hfs =>
      split at hti
      · exact RRes.noConfusion hti
      case _ acc hacc =>
        have haccl : acc.1.length = v.num_leaves := by
          have := accumulate_length v tfuel false features _ _ hacc
          simpa using this
        have haccnn : ∀ x ∈ acc.1, 0 ≤ x := by
          refine accumulate_nonneg v tfuel false hw features _ _ hacc ?_
          intro x hx
          have := List.eq_of_mem_replicate hx
          simp [this]
        refine ⟨?_, acc.1, acc.2, hacc, haccl, ?_, ?_⟩
        · by_cases hs : 0 < acc.1.sum
          · rw [if_pos hs] at hti
            have : r = (acc.1.map (fun w => w * (1 / acc.1.sum)), acc.2) := by
              cases hti; rfl
            rw [this]
            simpa using haccl
          · rw [if_neg hs] at hti
            have : r = acc := by cases hti; rfl
            rw [this]
            exact haccl
        · intro hs
          rw [if_pos hs] at hti
          have : r = (acc.1.map (fun w => w * (1 / acc.1.sum)), acc.2) := by
            cases hti; rfl
          rw [this]
          dsimp only
          refine List.map_congr_left ?_
          intro a _
          rw [mul_one_div]
        · intro hs
          have hnpos : ¬ 0 < acc.1.sum := by rw [hs]; exact lt_irrefl 0
          rw [if_neg hnpos] at hti
          have : r = acc := by cases hti; rfl
          rw [this]
          rw [← haccl]
          exact sum_zero_all_zero acc.1 haccnn hs
  case _ e hti => exact RRes.noConfusion h
  case _ hti => exact RRes.noConfusion h

/-- The root block of vAB. -/
def blockAB : Block :=
  { id := NodeId.block 0,
    children := { features := [descA, descB], weights := [1, 1],
                  cluster_size := [1, 1],
                  ids := [NodeId.leaf [0], NodeId.leaf [1]] } }

/-- Concrete evaluation of transform on vAB (rational arithmetic is
carried out by simp, since Rat operations do not reduce in the kernel). -/
theorem transformAB : transform vAB 2 [descA] = RRes.ok [1, 0] := by
  have hget0 : vAB.blocks[0]? = some blockAB := rfl
  have htrv : traverse vAB descA 2 blockAB = some ([0], 0, 1) := by decide
  have hacc : accumulate vAB 2 false [descA] ([0, 0], []) = some ([1, 0], []) := by
    simp [accumulate, hget0, htrv]
  have hrepl : List.replicate vAB.num_leaves (0 : ℚ) = [0, 0] := rfl
  simp only [transform, transform_inner, hrepl]
  rw [if_neg (by simp), hacc]
  norm_num

theorem C5_transform_l1_normalised_witness :
    (∀ b ∈ vAB.blocks, ∀ w ∈ b.children.weights, (0:ℚ) ≤ w) ∧
    transform vAB 2 [descA] = RRes.ok [1, 0] ∧
    (([1, 0] : List ℚ).length = vAB.num_leaves ∧
      ∃ acc dx, accumulate vAB 2 false [descA]
          (List.replicate vAB.num_leaves 0, []) = some (acc, dx) ∧
        acc.length = vAB.num_leaves ∧
        (0 < acc.sum → ([1, 0] : List ℚ) = acc.map (fun w => w / acc.sum)) ∧
        (acc.sum = 0 → ([1, 0] : List ℚ) = List.replicate vAB.num_leaves 0)) :=
  ⟨by decide, transformAB,
   C5_transform_l1_normalised vAB 2 [descA] [1, 0] (by decide) transformAB⟩

/-- C6: after create returns (levels ≥ 1 per the construction contract),
blocks[i].id = Block(i) for every index of the block list — in particular
the root is blocks[0] — and the block ids are exactly the contiguous range
0..num_blocks assigned by the monotonically increasing counter, never
reused (the list has num_blocks + 1 pairwise distinct ids). -/
theorem C6_blocks_indexed_by_id (O : Nat → List Desc → List Desc)
    (lfuel dfuel : Nat) (features : List Desc) (k l : Nat) (v : Vocabulary)
    (h : create O lfuel dfuel features k l = some v) (hl : 1 ≤ l) :
    (∀ i (hi : i < v.blocks.length), (v.blocks.get ⟨i, hi⟩).id = NodeId.block i) ∧
    v.blocks.length = v.num_blocks + 1 := by
  obtain ⟨⟨h1, h2, _⟩, _⟩ := create_spec O lfuel dfuel features k l v h hl
  exact ⟨h1, h2⟩

theorem C6_blocks_indexed_by_id_witness :
    create oracle0 9 9 [descA, descB] 2 1 = some vAB ∧ 1 ≤ 1 ∧
    vAB.blocks.length = vAB.num_blocks + 1 ∧
    (vAB.blocks.get ⟨0, by decide⟩).id = NodeId.block 0 :=
  ⟨createAB, by decide,
   (C6_blocks_indexed_by_id oracle0 9 9 [descA, descB] 2 1 vAB createAB
     (by decide)).2,
   (C6_blocks_indexed_by_id oracle0 9 9 [descA, descB] 2 1 vAB createAB
     (by decide)).1 0 (by decide)⟩

/-- C7: every leaf NodeId assigned during create(features, k, levels)
(with levels ≥ 1 per the construction contract) stores a path of length at
most levels. -/
theorem C7_leaf_path_length_le_levels (O : Nat → List Desc → List Desc)
    (lfuel dfuel : Nat) (features : List Desc) (k l : Nat) (v : Vocabulary)
    (h : create O lfuel dfuel features k l = some v) (hl : 1 ≤ l) :
    ∀ b ∈ v.blocks, ∀ c ∈ b.children.ids, ∀ q, c = NodeId.leaf q →
      q.length ≤ l := by
  obtain ⟨⟨_, _, hok⟩, _, hlev, _⟩ := create_spec O lfuel dfuel features k l v h hl
  intro b hb c hc q hq
  obtain ⟨_, _, i, _, hch⟩ := hok b hb
  have hcok := hch c hc
  rw [hq] at hcok
  obtain ⟨_, hle⟩ := hcok
  rw [hlev] at hle
  exact hle

theorem C7_leaf_path_length_le_levels_witness :
    create oracle0 9 9 [descA, descB] 2 1 = some vAB ∧ 1 ≤ 1 ∧
    ([0] : List Nat).length ≤ 1 :=
  ⟨createAB, by decide,
   C7_leaf_path_length_le_levels oracle0 9 9 [descA, descB] 2 1 vAB createAB
     (by decide) (vAB.blocks.get ⟨0, by decide⟩) (by decide)
     (NodeId.leaf [0]) (by decide) [0] rfl⟩

/-- C10: on a Vocabulary built by create from a non-empty feature set (with
levels ≥ 1 per the construction contract), transform performs no
out-of-bounds access: the root block exists, every Block child id indexes a
valid entry of the block list, every leaf word id is below num_leaves, and
no non-empty query can drive transform_inner into the panic outcome (which
models every out-of-range indexing, including the BoW fallback arm). -/
theorem C10_transform_no_out_of_bounds (O : Nat → List Desc → List Desc)
    (lfuel dfuel : Nat) (features : List Desc) (k l : Nat) (v : Vocabulary)
    (h : create O lfuel dfuel features k l = some v) (hf : features ≠ [])
    (hl : 1 ≤ l) :
    v.blocks ≠ [] ∧
    (∀ b ∈ v.blocks, ∀ c ∈ b.children.ids, ∀ j, c = NodeId.block j →
      j < v.blocks.length) ∧
    (∀ b ∈ v.blocks, ∀ c ∈ b.children.ids, ∀ q, c = NodeId.leaf q →
      q.getLastD 0 < v.num_leaves) ∧
    (∀ (q : List Desc) (tfuel : Nat) (di : Bool), q ≠ [] →
      v.blocks.length ≤ tfuel → transform_inner v tfuel q di ≠ RRes.panic) := by
  obtain ⟨⟨hidx, hlen, hok⟩, _, hlev, hroot⟩ :=
    create_spec O lfuel dfuel features k l v h hl
  refine ⟨?_, ?_, ?_, ?_⟩
  · obtain ⟨hd, tl, hbs, _⟩ := hroot hf
    rw [hbs]
    exact List.cons_ne_nil _ _
  · intro b hb c hc j hj
    obtain ⟨_, _, i, _, hch⟩ := hok b hb
    have hcok := hch c hc
    rw [hj] at hcok
    obtain ⟨_, b', hb', hbid', _⟩ := hcok
    obtain ⟨⟨j2, hj2⟩, hget2⟩ := List.mem_iff_get.mp hb'
    have hidj2 := hidx j2 hj2
    rw [hget2, hbid'] at hidj2
    have : j = j2 := by simpa using hidj2
    omega
  · intro b hb c hc q hq
    obtain ⟨_, _, i, _, hch⟩ := hok b hb
    have hcok := hch c hc
    rw [hq] at hcok
    obtain ⟨⟨pre, ℓ, hsh, hl'⟩, _⟩ := hcok
    rw [hsh, List.getLastD_concat]
    exact hl'
  · intro q tfuel di hq htf hpanic
    obtain ⟨r, hr⟩ := transform_inner_ok O lfuel dfuel features k l v h hf hl
      q hq tfuel htf di
    rw [hr] at hpanic
    exact RRes.noConfusion hpanic

theorem C10_transform_no_out_of_bounds_witness :
    create oracle0 9 9 [descA, descB] 2 1 = some vAB ∧
    ([descA, descB] : List Desc) ≠ [] ∧ 1 ≤ 1 ∧
    vAB.blocks ≠ [] ∧
    transform_inner vAB 2 [descB] true ≠ RRes.panic :=
  ⟨createAB, by decide, by decide,
   (C10_transform_no_out_of_bounds oracle0 9 9 [descA, descB] 2 1 vAB createAB
     (by decide) (by decide)).1,
   (C10_transform_no_out_of_bounds oracle0 9 9 [descA, descB] 2 1 vAB createAB
     (by decide) (by decide)).2.2.2 [descB] 2 true (by decide) (by decide)⟩

/-! ## Legacy fbow loader (src/load_fow.rs)

load_fow.rs is an older part of the crate with its own node-id shape (the
Leaf variant holds a plain index, not a path), so it is modelled with its
own types.  All index/slice panics and unwraps become none; the only Err
path in the source is the File::open I/O error, outside this byte-level
model. -/

namespace LoadFow

/-- NodeId as used by load_fow.rs: the Leaf variant holds a plain index. -/
inductive FNodeId where
  | block : Nat → FNodeId
  | leaf : Nat → FNodeId
deriving DecidableEq

/-- load_fow.rs struct FbowParams.  The two i32 fields desc_type and
desc_size are read but never used; they are kept as the raw 4-byte
little-endian values. -/
structure FbowParams where
  desc_name : List Nat
  alignment : Nat
  nblocks : Nat
  desc_size_bytes_wp : Nat
  block_size_bytes_wp : Nat
  feature_off_start : Nat
  child_off_start : Nat
  total_size : Nat
  desc_type : Nat
  desc_size : Nat
  m_k : Nat
deriving DecidableEq

/-- Read a w-byte little-endian unsigned integer starting at offset off;
uN::from_le_bytes / from_ne_bytes on the (little-endian) reference
platform. -/
def readLE (bytes : List Nat) (off w : Nat) : Nat :=
  (List.range w).foldr (fun i acc => acc * 256 + bytes.getD (off + i) 0 % 256) 0

/-- load_fow.rs FbowParams::load.  The slices it indexes reach up to byte
116, so a shorter buffer panics (none). -/
def fbowParamsLoad (bytes : List Nat) : Option FbowParams :=
  if bytes.length < 116 then none
  else some
    { desc_name := bytes.take 50
      alignment := readLE bytes 52 4
      nblocks := readLE bytes 56 4
      desc_size_bytes_wp := readLE bytes 64 8
      block_size_bytes_wp := readLE bytes 72 8
      feature_off_start := readLE bytes 80 8
      child_off_start := readLE bytes 88 8
      total_size := readLE bytes 96 8
      desc_type := readLE bytes 104 4
      desc_size := readLE bytes 108 4
      m_k := readLE bytes 112 4 }

/-- chunks(32) followed by try_into().unwrap() on each chunk: succeeds only
when the region splits into exact 32-byte chunks (a short final chunk makes
the unwrap panic).  The fuel is the region length, which bounds the number
of chunks. -/
def chunks32Go : Nat → List Nat → Option (List (List Nat))
  | _, [] => some []
  | 0, _ :: _ => none
  | fuel + 1, l =>
    if 32 ≤ l.length then
      (chunks32Go fuel (l.drop 32)).map (fun r => l.take 32 :: r)
    else none

/-- Children as used by load_fow.rs; weights keep the raw 4-byte
little-endian f32 bit patterns (never interpreted arithmetically by the
loader), and cluster_size is left empty ("fake obviously" in the source). -/
structure FChildren where
  features : List (List Nat)
  weights : List Nat
  cluster_size : List Nat
  ids : List FNodeId
deriving DecidableEq

structure FBlock where
  id : FNodeId
  children : FChildren
deriving DecidableEq

/-- The child-table loop of load_fow.rs Block::load: for i in 0..m_k read a
4-byte id and a 4-byte weight at child_off_start + 8*i.  The id's high bit
is the leaf flag and the low 31 bits the child id — but the source pushes
NodeId::Leaf in BOTH arms of its match on the flag (the false arm also
builds Leaf); the model reproduces the source exactly, which is the defect
claim C3 is about. -/
def readChildTable (bytes : List Nat) (childOff : Nat) :
    Nat → Nat → Option (List FNodeId × List Nat)
  | _, 0 => some ([], [])
  | i, count + 1 =>
    let start := childOff + i * 8
    if start + 8 ≤ bytes.length then
      let id := readLE bytes start 4
      let w := readLE bytes (start + 4) 4
      let nid := if Nat.land id 0x80000000 ≠ 0 then FNodeId.leaf (Nat.land id 0x7FFFFFFF)
                 else FNodeId.leaf (Nat.land id 0x7FFFFFFF)
      (readChildTable bytes childOff (i + 1) count).map
        (fun r => (nid :: r.1, w :: r.2))
    else none

/-- load_fow.rs Block::load.  Slice panics (feature region bounds, short
descriptor chunk, child table bounds, the id slice bytes[4..8]) are
modelled by none. -/
def blockLoad (bytes : List Nat) (ps : FbowParams) : Option FBlock :=
  let featSt := ps.feature_off_start
  let childSt := ps.child_off_start
  if featSt ≤ childSt ∧ childSt ≤ bytes.length ∧ 8 ≤ bytes.length then
    match chunks32Go (childSt - featSt) ((bytes.drop featSt).take (childSt - featSt)) with
    | none => none
    | some features =>
      match readChildTable bytes childSt 0 ps.m_k with
      | none => none
      | some iw =>
        some { id := FNodeId.block (readLE bytes 4 4)
               children := { features := features, weights := iw.2,
                             cluster_size := [], ids := iw.1 } }
  else none

/-- The Vocabulary shape produced by load_fow.rs (its own, older struct
layout with the two id counters). -/
structure FVocabulary where
  blocks : List FBlock
  k : Nat
  l : Nat
  next_block_id : Nat
  next_leaf_id : Nat
deriving DecidableEq

/-- The per-block loop of load_voc: block i is cut out of the payload at
i * block_size_bytes_wp; a slice past the end panics (none). -/
def loadBlocksGo (data : List Nat) (ps : FbowParams) :
    Nat → Nat → Option (List FBlock)
  | _, 0 => some []
  | i, count + 1 =>
    let start := i * ps.block_size_bytes_wp
    if start + ps.block_size_bytes_wp ≤ data.length then
      match blockLoad ((data.drop start).take ps.block_size_bytes_wp) ps with
      | none => none
      | some b =>
        (loadBlocksGo data ps (i + 1) count).map (fun r => b :: r)
    else none

/-- load_fow.rs Vocabulary::load_voc at byte level: 8 signature bytes, a
120-byte parameter block, then the payload.  The descriptor-size check and
the total-size check are assert_eq! macros in the source, i.e. they abort
by PANICKING, not by returning an error value; panics map to RRes.panic.
The only Err the source can return comes from File::open, which is outside
this byte-level model. -/
def load_voc (bytes : List Nat) : RRes FVocabulary :=
  let pb := (bytes.drop 8).take 120
  match fbowParamsLoad pb with
  | none => RRes.panic
  | some ps =>
    if ps.desc_size_bytes_wp ≠ 32 then RRes.panic
    else
      let data := bytes.drop 128
      if ps.total_size ≠ data.length then RRes.panic
      else
        match loadBlocksGo data ps 0 ps.nblocks with
        | none => RRes.panic
        | some blocks =>
          RRes.ok { blocks := blocks, k := ps.m_k, l := 0,
                    next_block_id := 0, next_leaf_id := 0 }

/-- One 40-byte block record: a 32-byte feature region of zeros, then one
child entry whose 4-byte id is 5 (high bit CLEAR) and whose weight bytes
are zero. -/
def c3bytes : List Nat := List.replicate 32 0 ++ [5, 0, 0, 0, 0, 0, 0, 0]

/-- The same record with the id's high bit SET (id bytes 05 00 00 80,
i.e. 0x80000005). -/
def c3bytesHigh : List Nat := List.replicate 32 0 ++ [5, 0, 0, 128, 0, 0, 0, 0]

/-- Parameters describing that record: features at [0, 32), child table at
32, one child per block. -/
def c3params : FbowParams :=
  { desc_name := [], alignment := 0, nblocks := 1, desc_size_bytes_wp := 32,
    block_size_bytes_wp := 40, feature_off_start := 0, child_off_start := 32,
    total_size := 40, desc_type := 0, desc_size := 0, m_k := 1 }

end LoadFow

/-- C3 (code bug): decoding a child record whose 4-byte id has the high bit
CLEAR yields a Leaf child, not the Block child the format requires,
because both arms of the source's match on the leaf flag push
NodeId::Leaf.  (A set high bit correctly yields a Leaf with the low 31
bits as id, as the third conjunct shows.) -/
theorem C3_high_bit_clear_decodes_to_leaf :
    (LoadFow.blockLoad LoadFow.c3bytes LoadFow.c3params).map
      (fun b => b.children.ids) = some [LoadFow.FNodeId.leaf 5] ∧
    (LoadFow.blockLoad LoadFow.c3bytes LoadFow.c3params).map
      (fun b => b.children.ids) ≠ some [LoadFow.FNodeId.block 5] ∧
    (LoadFow.blockLoad LoadFow.c3bytesHigh LoadFow.c3params).map
      (fun b => b.children.ids) = some [LoadFow.FNodeId.leaf 5] := by
  refine ⟨by decide, by decide, by decide⟩

/-- A 128-byte legacy file whose declared per-descriptor byte size is 16
(byte 72 of the file = byte 64 of the parameter block), not the compiled
32. -/
def c9bytes : List Nat := List.replicate 72 0 ++ 16 :: List.replicate 55 0

/-- C9, counterexample: on a declared descriptor size of 16 the loader does
NOT return an explicit error value — it panics (assert_eq! failure). -/
theorem C9_counterexample_panics_not_err :
    LoadFow.load_voc c9bytes = RRes.panic ∧
    ∀ e, LoadFow.load_voc c9bytes ≠ RRes.err e := by
  refine ⟨by decide, ?_⟩
  intro e h
  have h2 : LoadFow.load_voc c9bytes = RRes.panic := by decide
  rw [h2] at h
  exact RRes.noConfusion h

/-- C9, amended: when the declared per-descriptor byte size differs from
the compiled width (32 bytes), load_voc aborts the load via an assert_eq!
PANIC — not by returning an explicit error value to the caller. -/
theorem C9_size_mismatch_panics (bytes : List Nat) (ps : LoadFow.FbowParams)
    (hp : LoadFow.fbowParamsLoad ((bytes.drop 8).take 120) = some ps)
    (hd : ps.desc_size_bytes_wp ≠ 32) :
    LoadFow.load_voc bytes = RRes.panic := by
  unfold LoadFow.load_voc
  dsimp only
  rw [hp]
  dsimp only
  rw [if_pos hd]

theorem C9_size_mismatch_panics_witness :
    (∃ ps, LoadFow.fbowParamsLoad ((c9bytes.drop 8).take 120) = some ps ∧
      ps.desc_size_bytes_wp ≠ 32) ∧
    LoadFow.load_voc c9bytes = RRes.panic := by
  refine ⟨⟨_, rfl, by decide⟩, ?_⟩
  exact C9_size_mismatch_panics c9bytes _ rfl (by decide)

/-! ## Native persistence (claim C8)

Modelled from the spec: Vocabulary::save and Vocabulary::load (vocab.rs)
delegate to the external bincode crate and the file system, neither of
which is part of this repository's sources.  Following spec §4.4 the
native form is modelled as a self-describing byte encoding of the whole
Vocabulary — block list, branching factor, max depth, block/leaf counters
— with fixed 8-byte little-endian integers (bincode's fixint style),
length-prefixed sequences, and weights encoded exactly by numerator and
denominator, so that the bit patterns survive the round trip.  Integers
are bounded by 2^64 exactly as the 64-bit usize/u64 fields they stand
for. -/

namespace Ser

def W64 : Nat := 2 ^ 64

/-- w bytes, little-endian. -/
def natLE : Nat → Nat → List Nat
  | 0, _ => []
  | w + 1, n => n % 256 :: natLE w (n / 256)

def dLE : Nat → List Nat → Option (Nat × List Nat)
  | 0, rest => some (0, rest)
  | _ + 1, [] => none
  | w + 1, b :: rest => (dLE w rest).map (fun r => (b + 256 * r.1, r.2))

theorem dLE_rt : ∀ (w n : Nat), n < 256 ^ w →
    ∀ rest, dLE w (natLE w n ++ rest) = some (n, rest) := by
  intro w
  induction w with
  | zero =>
    intro n hn rest
    have : n = 0 := by simpa using hn
    subst this
    rfl
  | succ w ih =>
    intro n hn rest
    have hdiv : n / 256 < 256 ^ w := by
      rw [Nat.div_lt_iff_lt_mul (by norm_num)]
      calc n < 256 ^ (w + 1) := hn
        _ = 256 ^ w * 256 := by rw [pow_succ]
    have hstep : dLE (w + 1) (natLE (w + 1) n ++ rest)
        = (dLE w (natLE w (n / 256) ++ rest)).map
            (fun r => (n % 256 + 256 * r.1, r.2)) := rfl
    rw [hstep, ih (n / 256) hdiv rest]
    simp [Nat.mod_add_div]

def e64 (n : Nat) : List Nat := natLE 8 n

def d64 (l : List Nat) : Option (Nat × List Nat) := dLE 8 l

theorem d64_rt (n : Nat) (h : n < W64) (rest : List Nat) :
    d64 (e64 n ++ rest) = some (n, rest) := by
  have h' : n < 256 ^ 8 := by
    have : (256 : Nat) ^ 8 = 2 ^ 64 := by norm_num
    rw [this]
    exact h
  exact dLE_rt 8 n h' rest

def eInt (i : Int) : List Nat := (if i < 0 then 1 else 0) :: e64 i.natAbs

def dInt : List Nat → Option (Int × List Nat)
  | [] => none
  | s :: rest =>
    (d64 rest).map (fun r =>
      (if s = 1 then -(r.1 : Int) else (r.1 : Int), r.2))

theorem dInt_rt (i : Int) (h : i.natAbs < W64) (rest : List Nat) :
    dInt (eInt i ++ rest) = some (i, rest) := by
  by_cases hi : i < 0
  · have he : eInt i = 1 :: e64 i.natAbs := by
      unfold eInt; rw [if_pos hi]
    rw [he, List.cons_append]
    show (d64 (e64 i.natAbs ++ rest)).map (fun r =>
      (if (1 : Nat) = 1 then -(r.1 : Int) else (r.1 : Int), r.2)) = some (i, rest)
    rw [d64_rt _ h]
    have hval : -(i.natAbs : Int) = i := by omega
    show some (-(i.natAbs : Int), rest) = some (i, rest)
    rw [hval]
  · have he : eInt i = 0 :: e64 i.natAbs := by
      unfold eInt; rw [if_neg hi]
    rw [he, List.cons_append]
    show (d64 (e64 i.natAbs ++ rest)).map (fun r =>
      (if (0 : Nat) = 1 then -(r.1 : Int) else (r.1 : Int), r.2)) = some (i, rest)
    rw [d64_rt _ h]
    have hval : (i.natAbs : Int) = i := by omega
    show some ((i.natAbs : Int), rest) = some (i, rest)
    rw [hval]

def eRat (q : ℚ) : List Nat := eInt q.num ++ e64 q.den

def dRat (l : List Nat) : Option (ℚ × List Nat) :=
  match dInt l with
  | none => none
  | some (n, r1) =>
    match d64 r1 with
    | none => none
    | some (d, r2) => some ((n : ℚ) / (d : ℚ), r2)

theorem dRat_rt (q : ℚ) (h1 : q.num.natAbs < W64) (h2 : q.den < W64)
    (rest : List Nat) : dRat (eRat q ++ rest) = some (q, rest) := by
  unfold eRat dRat
  rw [List.append_assoc, dInt_rt _ h1]
  dsimp only
  rw [d64_rt _ h2]
  dsimp only
  rw [Rat.num_div_den]

def eList {α : Type} (f : α → List Nat) (l : List α) : List Nat :=
  e64 l.length ++ (l.map f).join

def dListGo {α : Type} (df : List Nat → Option (α × List Nat)) :
    Nat → List Nat → Option (List α × List Nat)
  | 0, rest => some ([], rest)
  | c + 1, rest =>
    match df rest with
    | none => none
    | some (a, r1) =>
      match dListGo df c r1 with
      | none => none
      | some (as, r2) => some (a :: as, r2)

def dList {α : Type} (df : List Nat → Option (α × List Nat))
    (l : List Nat) : Option (List α × List Nat) :=
  match d64 l with
  | none => none
  | some (c, r) => dListGo df c r

theorem dListGo_rt {α : Type} (f : α → List Nat)
    (df : List Nat → Option (α × List Nat)) :
    ∀ (l : List α), (∀ x ∈ l, ∀ r, df (f x ++ r) = some (x, r)) →
    ∀ rest, dListGo df l.length ((l.map f).join ++ rest) = some (l, rest) := by
  intro l
  induction l with
  | nil => intro _ rest; rfl
  | cons x xs ih =>
    intro helem rest
    simp only [List.length_cons, List.map_cons, List.join_cons,
      List.append_assoc, dListGo]
    rw [helem x (by simp)]
    dsimp only
    rw [ih (fun y hy r => helem y (by simp [hy]) r) rest]

theorem dList_rt {α : Type} (f : α → List Nat)
    (df : List Nat → Option (α × List Nat)) (l : List α)
    (hlen : l.length < W64)
    (helem : ∀ x ∈ l, ∀ r, df (f x ++ r) = some (x, r)) :
    ∀ rest, dList df (eList f l ++ rest) = some (l, rest) := by
  intro rest
  unfold dList eList
  rw [List.append_assoc, d64_rt _ hlen]
  exact dListGo_rt f df l helem rest

def eNats (l : List Nat) : List Nat := eList e64 l

def dNats (l : List Nat) : Option (List Nat × List Nat) := dList d64 l

def eNodeId : NodeId → List Nat
  | NodeId.block i => 0 :: e64 i
  | NodeId.leaf p => 1 :: eNats p

def dNodeId : List Nat → Option (NodeId × List Nat)
  | [] => none
  | 0 :: rest => (d64 rest).map (fun r => (NodeId.block r.1, r.2))
  | 1 :: rest => (dNats rest).map (fun r => (NodeId.leaf r.1, r.2))
  | (_ + 2) :: _ => none

def eChildren (c : Children) : List Nat :=
  eList eNats c.features ++ eList eRat c.weights ++
    eNats c.cluster_size ++ eList eNodeId c.ids

def dChildren (l : List Nat) : Option (Children × List Nat) :=
  match dList dNats l with
  | none => none
  | some (fs, r1) =>
    match dList dRat r1 with
    | none => none
    | some (ws, r2) =>
      match dNats r2 with
      | none => none
      | some (cs, r3) =>
        match dList dNodeId r3 with
        | none => none
        | some (ids, r4) =>
          some ({ features := fs, weights := ws, cluster_size := cs,
                  ids := ids }, r4)

def eBlock (b : Block) : List Nat := eNodeId b.id ++ eChildren b.children

def dBlock (l : List Nat) : Option (Block × List Nat) :=
  match dNodeId l with
  | none => none
  | some (i, r1) =>
    match dChildren r1 with
    | none => none
    | some (c, r2) => some ({ id := i, children := c }, r2)

/-- Modelled from the spec: Vocabulary::save, as the byte encoding of the
block list, branching factor, max depth and the two counters. -/
def save (v : Vocabulary) : List Nat :=
  eList eBlock v.blocks ++ e64 v.k ++ e64 v.levels ++ e64 v.num_blocks ++
    e64 v.num_leaves

/-- Modelled from the spec: Vocabulary::load, the inverse parser; trailing
bytes are rejected (the encoding is self-delimiting). -/
def load (l : List Nat) : Option Vocabulary :=
  match dList dBlock l with
  | none => none
  | some (bs, r1) =>
    match d64 r1 with
    | none => none
    | some (k, r2) =>
      match d64 r2 with
      | none => none
      | some (lv, r3) =>
        match d64 r3 with
        | none => none
        | some (nb, r4) =>
          match d64 r4 with
          | none => none
          | some (nl, r5) =>
            if r5 = [] then
              some { blocks := bs, k := k, levels := lv, num_blocks := nb,
                     num_leaves := nl }
            else none

/-- 64-bit boundedness of all the integers in a Vocabulary: in the source
every one of them is a usize or the payload of an f32, so this always
holds of real data. -/
def natsB (l : List Nat) : Prop := l.length < W64 ∧ ∀ x ∈ l, x < W64

def ratB (q : ℚ) : Prop := q.num.natAbs < W64 ∧ q.den < W64

def nodeIdB : NodeId → Prop
  | NodeId.block i => i < W64
  | NodeId.leaf p => natsB p

def childrenB (c : Children) : Prop :=
  c.features.length < W64 ∧ (∀ d ∈ c.features, natsB d) ∧
  c.weights.length < W64 ∧ (∀ w ∈ c.weights, ratB w) ∧
  natsB c.cluster_size ∧
  c.ids.length < W64 ∧ (∀ i ∈ c.ids, nodeIdB i)

def blockB (b : Block) : Prop := nodeIdB b.id ∧ childrenB b.children

def vocB (v : Vocabulary) : Prop :=
  v.blocks.length < W64 ∧ (∀ b ∈ v.blocks, blockB b) ∧
  v.k < W64 ∧ v.levels < W64 ∧ v.num_blocks < W64 ∧ v.num_leaves < W64

instance (l : List Nat) : Decidable (natsB l) := by
  unfold natsB; infer_instance

instance (q : ℚ) : Decidable (ratB q) := by
  unfold ratB; infer_instance

instance : ∀ n : NodeId, Decidable (nodeIdB n)
  | NodeId.block i => inferInstanceAs (Decidable (i < W64))
  | NodeId.leaf p => inferInstanceAs (Decidable (natsB p))

instance (c : Children) : Decidable (childrenB c) := by
  unfold childrenB; infer_instance

instance (b : Block) : Decidable (blockB b) := by
  unfold blockB; infer_instance

instance (v : Vocabulary) : Decidable (vocB v) := by
  unfold vocB; infer_instance

theorem dNats_rt (l : List Nat) (h : natsB l) (rest : List Nat) :
    dNats (eNats l ++ rest) = some (l, rest) :=
  dList_rt e64 d64 l h.1 (fun x hx r => d64_rt x (h.2 x hx) r) rest

theorem dNodeId_rt (n : NodeId) (h : nodeIdB n) (rest : List Nat) :
    dNodeId (eNodeId n ++ rest) = some (n, rest) := by
  cases n with
  | block i =>
    simp only [eNodeId, List.cons_append, dNodeId]
    rw [d64_rt _ h]
    rfl
  | leaf p =>
    simp only [eNodeId, List.cons_append, dNodeId]
    rw [dNats_rt _ h]
    rfl

theorem dChildren_rt (c : Children) (h : childrenB c) (rest : List Nat) :
    dChildren (eChildren c ++ rest) = some (c, rest) := by
  obtain ⟨h1, h2, h3, h4, h5, h6, h7⟩ := h
  unfold eChildren dChildren
  rw [List.append_assoc, List.append_assoc, List.append_assoc]
  rw [dList_rt eNats dNats c.features h1 (fun x hx r => dNats_rt x (h2 x hx) r)]
  dsimp only
  rw [dList_rt eRat dRat c.weights h3
    (fun x hx r => dRat_rt x (h4 x hx).1 (h4 x hx).2 r)]
  dsimp only
  rw [dNats_rt _ h5]
  dsimp only
  rw [dList_rt eNodeId dNodeId c.ids h6 (fun x hx r => dNodeId_rt x (h7 x hx) r)]

theorem dBlock_rt (b : Block) (h : blockB b) (rest : List Nat) :
    dBlock (eBlock b ++ rest) = some (b, rest) := by
  unfold eBlock dBlock
  rw [List.append_assoc, dNodeId_rt _ h.1]
  dsimp only
  rw [dChildren_rt _ h.2]

theorem load_save (v : Vocabulary) (h : vocB v) : load (save v) = some v := by
  obtain ⟨h1, h2, h3, h4, h5, h6⟩ := h
  unfold save load
  rw [List.append_assoc, List.append_assoc, List.append_assoc]
  rw [dList_rt eBlock dBlock v.blocks h1 (fun x hx r => dBlock_rt x (h2 x hx) r)]
  dsimp only
  rw [d64_rt _ h3]
  dsimp only
  rw [d64_rt _ h4]
  dsimp only
  rw [d64_rt _ h5]
  dsimp only
  rw [← List.append_nil (e64 v.num_leaves), d64_rt _ h6]
  rfl

end Ser

/-- C8: load(save v) succeeds and returns a Vocabulary structurally equal
to v — same block list (NodeId and leaf-path contents included), same
branching factor, levels, num_blocks and num_leaves, weights preserved
exactly.  The persistence layer itself (bincode + file I/O) is external to
the repository and is modelled from spec §4.4; the 64-bit bound on the
integers matches the usize/u64 fields of the real representation. -/
theorem C8_load_save_roundtrip (v : Vocabulary) (h : Ser.vocB v) :
    Ser.load (Ser.save v) = some v :=
  Ser.load_save v h

theorem C8_load_save_roundtrip_witness :
    Ser.vocB vAB ∧ Ser.load (Ser.save vAB) = some vAB :=
  ⟨by decide, C8_load_save_roundtrip vAB (by decide)⟩

end Abow
